import Mathlib

/-!
Verification of the query/key/value translation and cursor engine of
`datastore_mongo_stub.py` (a MongoDB-backed stub for the App Engine
datastore API), by a shallow embedding of its pure core into Lean.

Modelling conventions:
* Python 2 byte/unicode strings are modelled as `List Char` when character
  structure matters (key encodings, regex patterns) and as `String` for
  opaque payloads (property names, tag strings, message strings).  The
  source treats both interchangeably.
* Python exceptions are modelled by `Option`/`Except`: a branch of the
  source that raises becomes `none` / `.error`.
* IEEE-754 doubles occur in the code only as opaque payloads that both
  codecs pass through verbatim; they are modelled by their bit pattern as
  a `Nat` (no arithmetic, rounding, or IEEE comparison is modelled).
-/

namespace MongoStub

/-! ## Decimal integers: Python `str(int)` and `int(str)` -/

/-- The decimal digit character for `n % 10`, as produced by Python `str`. -/
def digitChar : Nat → Char
  | 0 => '0' | 1 => '1' | 2 => '2' | 3 => '3' | 4 => '4'
  | 5 => '5' | 6 => '6' | 7 => '7' | 8 => '8' | _ => '9'

def digitVal (c : Char) : Nat := c.toNat - 48

def isDigitChar (c : Char) : Bool := 48 ≤ c.toNat && c.toNat ≤ 57

/-- Worker for `natToDigits`; `fuel` only forces structural termination
(any `fuel > n` computes the digits of `n`). -/
def natToDigitsAux : Nat → Nat → List Char
  | 0, _ => []
  | fuel + 1, n =>
    if n < 10 then [digitChar n]
    else natToDigitsAux fuel (n / 10) ++ [digitChar (n % 10)]

/-- Decimal digit string of a natural number, most significant digit first
(Python `str(n)` for `n ≥ 0`). -/
def natToDigits (n : Nat) : List Char := natToDigitsAux (n + 1) n

/-- Value of a digit string (the accumulator loop inside Python `int`). -/
def digitsVal (l : List Char) : Nat :=
  l.foldl (fun a c => 10 * a + digitVal c) 0

/-- Python `int(s)` on an unsigned digit string: every character must be a
digit and the string nonempty, otherwise `ValueError` (here: `none`).
(Python also tolerates surrounding whitespace and a leading `+`; those
inputs never arise from the encoder and are not modelled.) -/
def parseDigits (l : List Char) : Option Nat :=
  if !l.isEmpty && l.all isDigitChar then some (digitsVal l) else none

/-- Python `int(s)` including the sign, as used by `__key_for_id`. -/
def pyIntOfChars (l : List Char) : Option Int :=
  match l with
  | '-' :: rest => (parseDigits rest).map fun n => -(Int.ofNat n)
  | _ => (parseDigits l).map fun n => Int.ofNat n

/-- Python `str(i)` for an `int`/`long`, as used by `__id_for_key`. -/
def intToChars (i : Int) : List Char :=
  if i < 0 then '-' :: natToDigits i.natAbs else natToDigits i.natAbs

/-! ## The field separator and joining/splitting of path components -/

/-- The field separator byte `"\10"` (octal 10 = `'\x08'`) used by
`__id_for_key` / `__key_for_id`. -/
def sepChar : Char := '\x08'

/-- Python `sep.join(parts)` for a one-character separator. -/
def joinParts (sep : Char) : List (List Char) → List Char
  | [] => []
  | [p] => p
  | p :: ps => p ++ sep :: joinParts sep ps

/-- Python `s.split(sep)` for a one-character separator. -/
def splitOnChar (sep : Char) : List Char → List (List Char)
  | [] => [[]]
  | c :: rest =>
    let r := splitOnChar sep rest
    if c = sep then [] :: r else (c :: r.headD []) :: r.tail

/-! ## Hierarchical keys and the key codec (`__id_for_key`, `__key_for_id`) -/

/-- A path element's identifier: a caller-assigned name or a numeric id. -/
inductive PathId where
  | name (s : List Char)
  | num (i : Int)
deriving DecidableEq, Repr

/-- One `(kind, identifier)` pair of a hierarchical key path. -/
structure PathElem where
  kind : List Char
  ident : PathId
deriving DecidableEq, Repr

/-- The two strings `add_element_to_db_path` appends for one path element:
the kind, then the name, or `"\t" + str(id)` for a numeric id. -/
def dbPathOfElem (e : PathElem) : List (List Char) :=
  [e.kind, match e.ident with
           | .name s => s
           | .num i => '\t' :: intToChars i]

/-- `__id_for_key`: flatten the path into kind/identifier strings and join
them with the separator byte. -/
def idForKey (k : List PathElem) : List Char :=
  joinParts sepChar (k.flatMap dbPathOfElem)

/-- One decoded component (`from_db` inside `__key_for_id`): a string, or
an integer when the component starts with the `"\t"` marker. -/
inductive PathPart where
  | pstr (s : List Char)
  | pint (i : Int)
deriving DecidableEq, Repr

/-- `from_db`: strip the `"\t"` marker and parse an int, else keep the
string.  `int` can raise `ValueError` (modelled as `none`). -/
def fromDb (v : List Char) : Option PathPart :=
  match v with
  | '\t' :: rest => (pyIntOfChars rest).map .pint
  | _ => some (.pstr v)

/-- Pair the flat component list back into `(kind, identifier)` path
elements, as `datastore_types.Key.from_path(*args)` does.  A kind position
holding an integer, or an odd number of components, raises
`BadArgumentError` (modelled as `none`). -/
def pairParts : List PathPart → Option (List PathElem)
  | [] => some []
  | .pstr k :: .pstr n :: rest => (pairParts rest).map (⟨k, .name n⟩ :: ·)
  | .pstr k :: .pint i :: rest => (pairParts rest).map (⟨k, .num i⟩ :: ·)
  | _ => none

/-- `__key_for_id`: split on the separator, decode each component, pair
them up.  `from_path` with an empty path raises (modelled as `none`). -/
def keyForId (id : List Char) : Option (List PathElem) := do
  let parts ← (splitOnChar sepChar id).mapM fromDb
  let key ← pairParts parts
  if key.isEmpty then none else some key

/-- Well-formedness of one kind or name string for the key codec: it must
not contain the separator byte and must not begin with the numeric-id
marker byte `'\t'`. -/
def wfName (s : List Char) : Bool :=
  !s.contains sepChar && s.head? != some '\t'

def wfElem (e : PathElem) : Bool :=
  wfName e.kind && (match e.ident with
                    | .name s => wfName s
                    | .num _ => true)

/-- Well-formed key: nonempty, every kind and name separator-free and not
starting with the marker byte. -/
def wfKey (k : List PathElem) : Bool :=
  !k.isEmpty && k.all wfElem

/-! ## Property values and the value codec
(`__create_mongo_value_for_value`, `__create_value_for_mongo_value`)

Datastore property values are scalars or lists of scalars (the datastore
API forbids nested lists; the upstream entity model validates this, see
spec §1/§3), so the value type is two-level.  `users.User` is modelled by
the only constituent the stub reads and writes: its email.  Python 2
`str`/`unicode` are both modelled as `String`. -/

/-- An IEEE-754 double, modelled as its 64-bit pattern.  The codecs only
move doubles verbatim, so no arithmetic or IEEE comparison semantics is
needed (NaN-inequality corner cases are out of modelled scope). -/
abbrev PyFloat := Nat

inductive PyScalar where
  | pbool (b : Bool)
  | pint (i : Int)
  | pfloat (x : PyFloat)
  | pstr (s : String)
  | blob (s : String)
  | rating (i : Int)
  | category (s : String)
  | keyv (k : List PathElem)
  | user (email : String)
  | text (s : String)
  | im (protocol : String) (address : String)
  | geopt (lat : PyFloat) (lon : PyFloat)
  | email (s : String)
deriving DecidableEq, Repr

inductive PyValue where
  | scalar (s : PyScalar)
  | list (l : List PyScalar)
deriving DecidableEq, Repr

/-- A BSON value as pymongo stores it: scalars, binary data, arrays, and
documents (field order significant, as in BSON). -/
inductive MongoValue where
  | mbool (b : Bool)
  | mint (i : Int)
  | mfloat (x : PyFloat)
  | mstr (s : String)
  | mbin (s : String)
  | mlist (l : List MongoValue)
  | mdoc (fields : List (String × MongoValue))

mutual

/-- Structural (BSON byte-order) equality of stored values, as the
document store's equality comparison sees them. -/
def mongoBeq : MongoValue → MongoValue → Bool
  | .mbool a, .mbool b => a == b
  | .mint a, .mint b => a == b
  | .mfloat a, .mfloat b => a == b
  | .mstr a, .mstr b => a == b
  | .mbin a, .mbin b => a == b
  | .mlist a, .mlist b => mongoBeqList a b
  | .mdoc a, .mdoc b => mongoBeqDoc a b
  | _, _ => false

def mongoBeqList : List MongoValue → List MongoValue → Bool
  | [], [] => true
  | a :: as, b :: bs => mongoBeq a b && mongoBeqList as bs
  | _, _ => false

def mongoBeqDoc : List (String × MongoValue) → List (String × MongoValue) → Bool
  | [], [] => true
  | (k1, v1) :: as, (k2, v2) :: bs => k1 == k2 && mongoBeq v1 v2 && mongoBeqDoc as bs
  | _, _ => false

end

/-- Python `dict[key]` lookup on a document (first binding wins; encoded
documents never repeat a field name). -/
def getField : List (String × MongoValue) → String → Option MongoValue
  | [], _ => none
  | (k, v) :: rest, key => if k = key then some v else getField rest key

/-- Approximation of CPython 2's cross-type total order used by
`sorted(value)`: numeric kinds compare by value, string-like kinds by
content, other kinds by a fixed type rank.  Only the totality of the sort
and preservation of membership matter to any verified claim: the derived
ascending/descending sort keys this order feeds are never inspected by a
theorem. -/
def scalarRank : PyScalar → Nat
  | .pbool _ => 0
  | .pint _ => 0
  | .rating _ => 0
  | .pfloat _ => 1
  | .pstr _ => 2
  | .blob _ => 2
  | .category _ => 2
  | .text _ => 2
  | .email _ => 2
  | .geopt _ _ => 3
  | .im _ _ => 4
  | .keyv _ => 5
  | .user _ => 6

def scalarNumVal : PyScalar → Int
  | .pbool b => if b then 1 else 0
  | .pint i => i
  | .rating i => i
  | _ => 0

def scalarStrVal : PyScalar → String
  | .pstr s => s
  | .blob s => s
  | .category s => s
  | .text s => s
  | .email s => s
  | _ => ""

def pyLeScalar (a b : PyScalar) : Bool :=
  if scalarRank a < scalarRank b then true
  else if scalarRank b < scalarRank a then false
  else if scalarRank a = 0 then scalarNumVal a ≤ scalarNumVal b
  else if scalarRank a = 2 then scalarStrVal a ≤ scalarStrVal b
  else true

def pyInsert (a : PyScalar) : List PyScalar → List PyScalar
  | [] => [a]
  | b :: bs => if pyLeScalar b a then b :: pyInsert a bs else a :: b :: bs

/-- Python `sorted(value)` (insertion sort under `pyLeScalar`). -/
def pySorted (l : List PyScalar) : List PyScalar := l.foldr pyInsert []

/-- Scalar half of `__create_mongo_value_for_value`: the dispatch branches
of the source in order (rating, category, key, user, text, blob, im,
geopt, email), every other value passing through unchanged. -/
def encodeScalar : PyScalar → MongoValue
  | .rating i => .mdoc [("class", .mstr "rating"), ("rating", .mint i)]
  | .category s => .mdoc [("class", .mstr "category"), ("category", .mstr s)]
  | .keyv k => .mdoc [("class", .mstr "key"), ("path", .mstr (String.mk (idForKey k)))]
  | .user e => .mdoc [("class", .mstr "user"), ("email", .mstr e)]
  | .text s => .mdoc [("class", .mstr "text"), ("string", .mstr s)]
  | .blob s => .mbin s
  | .im p a => .mdoc [("class", .mstr "im"), ("protocol", .mstr p), ("address", .mstr a)]
  | .geopt la lo => .mdoc [("class", .mstr "geopt"), ("lat", .mfloat la), ("lon", .mfloat lo)]
  | .email s => .mdoc [("class", .mstr "email"), ("value", .mstr s)]
  | .pbool b => .mbool b
  | .pint i => .mint i
  | .pfloat x => .mfloat x
  | .pstr s => .mstr s

/-- `__create_mongo_value_for_value`.  For a list the source computes
`sorted(value)` and reads `sorted_list[0]` and `sorted_list[-1]`; on the
empty list that raises `IndexError` (modelled as `none`). -/
def encodeValue : PyValue → Option MongoValue
  | .scalar s => some (encodeScalar s)
  | .list l =>
    match pySorted l with
    | [] => none
    | m :: ms =>
      some (.mdoc [("class", .mstr "list"),
                   ("list", .mlist (l.map encodeScalar)),
                   ("ascending_sort_key", encodeScalar m),
                   ("descending_sort_key", encodeScalar (ms.getLastD m))])

/-- Scalar half of `__create_value_for_mongo_value`: `Binary` becomes a
`Blob`; a document dispatches on its `class` tag (`KeyError` on a missing
tag is `none`).  A document with an unrecognized tag, or a bare value of a
shape the encoder never produces, is returned unchanged by the source —
not reconstructible as a datastore value, modelled as `none`. -/
def decodeScalar : MongoValue → Option PyScalar
  | .mbin s => some (.blob s)
  | .mdoc d =>
    (match getField d "class" with
     | some (.mstr c) =>
       if c = "rating" then
         match getField d "rating" with
         | some (.mint i) => some (.rating i)
         | _ => none
       else if c = "category" then
         match getField d "category" with
         | some (.mstr s) => some (.category s)
         | _ => none
       else if c = "key" then
         match getField d "path" with
         | some (.mstr s) => (keyForId s.data).map .keyv
         | _ => none
       else if c = "user" then
         match getField d "email" with
         | some (.mstr e) => some (.user e)
         | _ => none
       else if c = "text" then
         match getField d "string" with
         | some (.mstr s) => some (.text s)
         | _ => none
       else if c = "im" then
         match getField d "protocol", getField d "address" with
         | some (.mstr p), some (.mstr a) => some (.im p a)
         | _, _ => none
       else if c = "geopt" then
         match getField d "lat", getField d "lon" with
         | some (.mfloat la), some (.mfloat lo) => some (.geopt la lo)
         | _, _ => none
       else if c = "email" then
         match getField d "value" with
         | some (.mstr s) => some (.email s)
         | _ => none
       else none
     | _ => none)
  | .mbool b => some (.pbool b)
  | .mint i => some (.pint i)
  | .mfloat x => some (.pfloat x)
  | .mstr s => some (.pstr s)
  | .mlist _ => none

/-- `__create_value_for_mongo_value`: the `class == 'list'` branch decodes
every member of the stored `list` field; every other value decodes as a
scalar. -/
def decodeValue (m : MongoValue) : Option PyValue :=
  match m with
  | .mdoc d =>
    (match getField d "class" with
     | some (.mstr c) =>
       if c = "list" then
         match getField d "list" with
         | some (.mlist items) => (items.mapM decodeScalar).map .list
         | _ => none
       else (decodeScalar m).map .scalar
     | _ => (decodeScalar m).map .scalar)
  | _ => (decodeScalar m).map .scalar

/-- The domain on which encoding succeeds and round-trips: reference keys
must be well-formed for the key codec. -/
def encodableScalar : PyScalar → Bool
  | .keyv k => wfKey k
  | _ => true

def encodable : PyValue → Bool
  | .scalar s => encodableScalar s
  | .list l => !l.isEmpty && l.all encodableScalar

/-! ## A small regex engine

The stub builds one kind of pattern: `re.compile("^%s.*$" % anc)` for the
ancestor filter, with the raw encoded ancestor id interpolated unescaped.
The engine below covers the fragment such patterns can express -- a fully
anchored sequence of literal characters and dots, each optionally
quantified by `*` or `+` -- with PCRE semantics (`.` does not match a
newline; no flags).  Any other metacharacter makes compilation fail, which
also models `re.compile` raising on malformed patterns such as an
unbalanced `(`. -/

inductive RAtom where
  | rchr (c : Char)
  | rdot
deriving DecidableEq, Repr

inductive RItem where
  | ione (a : RAtom)
  | istar (a : RAtom)
  | iplus (a : RAtom)
deriving DecidableEq, Repr

def amatch : RAtom → Char → Bool
  | .rchr c, d => c == d
  | .rdot, d => d != '\n'

/-- Worker for `rmatch`: backtracking anchored matching, with a fuel
argument only to make the recursion structural (each recursive call
strictly decreases `ps.length + s.length`, so any larger fuel computes
the match). -/
def rmatchF : Nat → List RItem → List Char → Bool
  | 0, _, _ => false
  | fuel + 1, ps, s =>
    match ps with
    | [] => s.isEmpty
    | .ione a :: ps2 =>
      (match s with
       | [] => false
       | c :: s2 => amatch a c && rmatchF fuel ps2 s2)
    | .istar a :: ps2 =>
      rmatchF fuel ps2 s ||
        (match s with
         | [] => false
         | c :: s2 => amatch a c && rmatchF fuel (.istar a :: ps2) s2)
    | .iplus a :: ps2 =>
      (match s with
       | [] => false
       | c :: s2 => amatch a c && rmatchF fuel (.istar a :: ps2) s2)

/-- Anchored (whole-string) matching of an item sequence. -/
def rmatch (ps : List RItem) (s : List Char) : Bool :=
  rmatchF (ps.length + s.length + 1) ps s

/-- The characters Python `re` treats specially. -/
def regexMeta : List Char :=
  ['.', '*', '+', '?', '(', ')', '[', ']', '\x7b', '\x7d', '|', '^', '$', '\\']

def regexSafe (l : List Char) : Bool := l.all (fun c => !regexMeta.contains c)

def ratomOf (c : Char) : Option RAtom :=
  if c = '.' then some .rdot
  else if regexMeta.contains c then none
  else some (.rchr c)

/-- Tokenize a pattern body into quantified atoms; `none` on any
construct outside the supported fragment (also covering `re.compile`
errors such as a quantifier with nothing to repeat). -/
def tokenize : List Char → Option (List RItem)
  | [] => some []
  | c :: rest =>
    match ratomOf c with
    | none => none
    | some a =>
      match rest with
      | [] => some [.ione a]
      | q :: rest2 =>
        if q = '*' then (tokenize rest2).map (.istar a :: ·)
        else if q = '+' then (tokenize rest2).map (.iplus a :: ·)
        else (tokenize (q :: rest2)).map (.ione a :: ·)

/-- Compile a fully anchored pattern `^body$`. -/
def compileRegex (p : List Char) : Option (List RItem) :=
  match p with
  | '^' :: rest =>
    if rest.getLast? = some '$' then tokenize rest.dropLast else none
  | _ => none

/-- The pattern source `"^%s.*$" % anc` built by `_Dynamic_RunQuery` for an
ancestor filter. -/
def ancestorRegexSrc (anc : List Char) : List Char :=
  '^' :: (anc ++ ['.', '*', '$'])

/-! ## Entities, documents, and the store

The store is modelled as one list of documents per collection (collection
= entity kind), plus the stub's cursor registry state.  pymongo cursors
are lazy; a registered cursor is modelled by the list of documents the
translated query selects, in store order, which is observationally the
sequence the cursor will yield. -/

abbrev MongoDoc := List (String × MongoValue)

/-- An entity: its hierarchical key and its property dictionary. -/
structure Entity where
  key : List PathElem
  props : List (String × PyValue)
deriving DecidableEq, Repr

/-- `__collection_for_key`: the kind of the last path element. -/
def collKind (k : List PathElem) : List Char :=
  match k.getLast? with
  | some e => e.kind
  | none => []

def idStrOfKey (k : List PathElem) : String := String.mk (idForKey k)

/-- Python `dict` assignment `d[k] = v`: overwrite in place or append. -/
def dictInsert (d : MongoDoc) (k : String) (v : MongoValue) : MongoDoc :=
  if d.any (fun p => p.fst == k) then
    d.map (fun p => if p.fst == k then (k, v) else p)
  else d ++ [(k, v)]

/-- Python `dict.pop(k)` (the removal part). -/
def removeField (d : MongoDoc) (k : String) : MongoDoc :=
  d.filter (fun p => p.fst ≠ k)

/-- `__mongo_document_for_entity`: start from `{_id: encoded key}`, then
assign each encoded property value (a raising encoder aborts the write). -/
def mongoDocumentForEntity (e : Entity) : Option MongoDoc :=
  e.props.foldlM
    (fun d kv => (encodeValue kv.2).map (dictInsert d kv.1))
    [("_id", MongoValue.mstr (idStrOfKey e.key))]

/-- `__entity_for_mongo_document`: pop `_id`, decode it into the key,
decode every remaining field into a property. -/
def entityForMongoDocument (d : MongoDoc) : Option Entity := do
  let idv ← getField d "_id"
  match idv with
  | .mstr s => do
    let k ← keyForId s.data
    let props ← (removeField d "_id").mapM
      (fun p => (decodeValue p.2).map ((p.1, ·)))
    pure { key := k, props := props }
  | _ => none

def docId (d : MongoDoc) : Option MongoValue := getField d "_id"

def optValBeq : Option MongoValue → Option MongoValue → Bool
  | some a, some b => mongoBeq a b
  | none, none => true
  | _, _ => false

/-- pymongo `collection.save(doc)`: replace the document with the same
`_id`, or append. -/
def collSave : List MongoDoc → MongoDoc → List MongoDoc
  | [], d => [d]
  | e :: es, d => if optValBeq (docId e) (docId d) then d :: es else e :: collSave es d

/-- `collection.find_one({"_id": id})`. -/
def findDocById (docs : List MongoDoc) (id : String) : Option MongoDoc :=
  docs.find? (fun d => optValBeq (docId d) (some (.mstr id)))

/-- The stub's mutable state: the backing collections and the cursor
registry (`__next_cursor` starts at 1; `__queries`). -/
structure StubState where
  collections : List (List Char × List MongoDoc)
  nextCursor : Nat
  queries : List (Nat × List MongoDoc)

def collectionOf (st : StubState) : List Char → List MongoDoc :=
  fun kind =>
    match st.collections.find? (fun p => p.fst = kind) with
    | some p => p.snd
    | none => []

def setCollection (st : StubState) (kind : List Char) (docs : List MongoDoc) : StubState :=
  if st.collections.any (fun p => p.fst = kind) then
    { st with collections :=
        st.collections.map (fun p => if p.fst = kind then (kind, docs) else p) }
  else
    { st with collections := st.collections ++ [(kind, docs)] }

def findCursor (queries : List (Nat × List MongoDoc)) (h : Nat) : Option (List MongoDoc) :=
  match queries.find? (fun p => p.fst = h) with
  | some p => some p.snd
  | none => none

def setCursor (queries : List (Nat × List MongoDoc)) (h : Nat) (docs : List MongoDoc) :
    List (Nat × List MongoDoc) :=
  queries.map (fun p => if p.fst = h then (h, docs) else p)

/-- Application errors surfaced by the stub: `BAD_REQUEST` application
errors, and any other raised exception (assertion failures, codec
`IndexError`/`ValueError`, `re` errors, `InternalError`). -/
inductive StubError where
  | badRequest (msg : String)
  | internalError (msg : String)
deriving DecidableEq, Repr

/-- `_Dynamic_Put` for one entity of the request, with the value
`random.randint(-sys.maxint-1, sys.maxint)` drew passed in as `rnd`
(that range includes 0).  Returns the new state and the response key
`__key_for_id(save(...))`. -/
def putEntity (st : StubState) (e : Entity) (rnd : Int) :
    Except StubError (StubState × List PathElem) :=
  match e.key.getLast? with
  | none => .error (.internalError "assert: empty key path")
  | some last =>
    let key := if last.ident = PathId.num 0
               then e.key.dropLast ++ [{ last with ident := .num rnd }]
               else e.key
    let coll := collKind key
    match mongoDocumentForEntity { e with key := key } with
    | none => .error (.internalError "property value encoding raised")
    | some doc =>
      let st2 := setCollection st coll (collSave (collectionOf st coll) doc)
      match docId doc with
      | some (.mstr s) =>
        match keyForId s.data with
        | some k2 => .ok (st2, k2)
        | none => .error (.internalError "response key decode raised")
      | _ => .error (.internalError "missing _id")

/-- `_Dynamic_Get` for one key: look the document up by encoded id and
decode it; an absent document gives an absent entity. -/
def getEntity (st : StubState) (key : List PathElem) : Option Entity :=
  match findDocById (collectionOf st (collKind key)) (idStrOfKey key) with
  | none => none
  | some d => entityForMongoDocument d

/-! ## Query translation (`_Dynamic_RunQuery` and helpers) -/

/-- The five supported comparison operators (the source's `operators`
table; `IN` is rejected by an assert and `EXISTS` by a `KeyError`,
neither is representable here). -/
inductive FilterOp where
  | flt
  | fle
  | fgt
  | fge
  | feq
deriving DecidableEq, Repr

structure FilterClause where
  prop : String
  op : FilterOp
  value : PyValue
deriving DecidableEq, Repr

structure OrderClause where
  prop : String
  descending : Bool
deriving DecidableEq, Repr

/-- A query descriptor: kind, optional ancestor, filters, orders,
optional offset and limit. -/
structure Query where
  kind : List Char
  ancestorK : Option (List PathElem)
  filters : List FilterClause
  orders : List OrderClause
  offset : Option Nat
  limit : Option Nat
deriving DecidableEq, Repr

/-- One native filter constraint: the value of a spec key. -/
inductive MongoConstraint where
  | ceq (v : MongoValue)
  | clt (v : MongoValue)
  | cle (v : MongoValue)
  | cgt (v : MongoValue)
  | cge (v : MongoValue)
  | cregex (r : List RItem)

abbrev MongoSpec := List (String × MongoConstraint)

def lookupProp (props : List (String × PyValue)) (k : String) : Option PyValue :=
  match props.find? (fun p => p.fst = k) with
  | some p => some p.snd
  | none => none

/-- `__filter_suffix`: list-typed properties are filtered through their
`.list` sub-field. -/
def filterSuffix (v : PyValue) : String :=
  match v with
  | .list _ => ".list"
  | _ => ""

def mkConstraint (op : FilterOp) (v : MongoValue) : MongoConstraint :=
  match op with
  | .flt => .clt v
  | .fle => .cle v
  | .fgt => .cgt v
  | .fge => .cge v
  | .feq => .ceq v

/-- `__filter_binding`: suffix the key by the prototype's type, rewrite
`__key__` to `_id` through the key codec, pass other operands through the
value codec. -/
def filterBinding (f : FilterClause) (proto : List (String × PyValue)) :
    Except StubError (String × MongoConstraint) :=
  let key := match lookupProp proto f.prop with
             | some v => f.prop ++ filterSuffix v
             | none => f.prop
  if key = "__key__" then
    match f.value with
    | .scalar (.keyv k) => .ok ("_id", mkConstraint f.op (.mstr (idStrOfKey k)))
    | _ => .error (.internalError "__key__ filter operand is not a key")
  else
    match encodeValue f.value with
    | some mv => .ok (key, mkConstraint f.op mv)
    | none => .error (.internalError "filter operand encoding raised")

def specHasKey (spec : MongoSpec) (k : String) : Bool :=
  spec.any (fun p => p.fst == k)

/-- The filter loop of `_Dynamic_RunQuery`: bind each clause; a key
already present in the spec aborts with the empty closed result
(`.ok none`); a raising binding propagates. -/
def addFilters : List FilterClause → List (String × PyValue) → MongoSpec →
    Except StubError (Option MongoSpec)
  | [], _, spec => .ok (some spec)
  | f :: fs, proto, spec =>
    match filterBinding f proto with
    | .error e => .error e
    | .ok (key, c) =>
      if specHasKey spec key then .ok none
      else addFilters fs proto (spec ++ [(key, c)])

/-- `__unorderable`: long text and blobs cannot be ordered on. -/
def unorderable (v : PyValue) : Bool :=
  match v with
  | .scalar (.text _) => true
  | .scalar (.blob _) => true
  | _ => false

/-- `__special_props`: order categories by their embedded string,
geo-points by latitude then longitude, lists by the direction's derived
sort key. -/
def specialProps (v : PyValue) (descending : Bool) : Option (List String) :=
  match v with
  | .scalar (.category _) => some ["category"]
  | .scalar (.geopt _ _) => some ["lat", "lon"]
  | .list _ => some [if descending then "descending_sort_key" else "ascending_sort_key"]
  | _ => none

/-- `__translate_order_for_mongo`: `none` when a requested order property
is absent from the prototype or unorderable. -/
def translateOrder : List OrderClause → List (String × PyValue) →
    Option (List (String × Bool))
  | [], _ => some []
  | o :: os, proto =>
    if o.prop = "__key__" then
      (translateOrder os proto).map (("_id", o.descending) :: ·)
    else
      match lookupProp proto o.prop with
      | none => none
      | some v =>
        if unorderable v then none
        else
          match specialProps v o.descending with
          | some props =>
            (translateOrder os proto).map
              (props.map (fun p => (o.prop ++ "." ++ p, o.descending)) ++ ·)
          | none => (translateOrder os proto).map ((o.prop, o.descending) :: ·)

/-- Resolve a (possibly dotted) field path inside a document, as the
native filter engine does for paths like `p.list`. -/
def pathResolve (d : MongoDoc) : List (List Char) → Option MongoValue
  | [] => none
  | [seg] => getField d (String.mk seg)
  | seg :: rest =>
    match getField d (String.mk seg) with
    | some (.mdoc d2) => pathResolve d2 rest
    | _ => none

/-- Same-type native value comparison.  Cross-type comparisons never
match (the store's type bracketing); the numeric int/double cross
comparison and the true IEEE double order are not modelled -- no verified
claim depends on a range comparison or a sort order. -/
def mongoLtB : MongoValue → MongoValue → Bool
  | .mbool a, .mbool b => !a && b
  | .mint a, .mint b => a < b
  | .mfloat a, .mfloat b => a < b
  | .mstr a, .mstr b => a < b
  | .mbin a, .mbin b => a < b
  | _, _ => false

/-- Array-valued fields match a comparison when any element does. -/
def rangeAny (v : MongoValue) (p : MongoValue → Bool) : Bool :=
  match v with
  | .mlist l => l.any p
  | _ => p v

def constraintMatches (c : MongoConstraint) (v : MongoValue) : Bool :=
  match c with
  | .ceq t =>
    mongoBeq v t ||
      (match v with
       | .mlist l => l.any (fun x => mongoBeq x t)
       | _ => false)
  | .clt t => rangeAny v (fun x => mongoLtB x t)
  | .cle t => rangeAny v (fun x => mongoLtB x t || mongoBeq x t)
  | .cgt t => rangeAny v (fun x => mongoLtB t x)
  | .cge t => rangeAny v (fun x => mongoLtB t x || mongoBeq x t)
  | .cregex r =>
    match v with
    | .mstr s => rmatch r s.data
    | _ => false

def docMatchesBinding (d : MongoDoc) (kc : String × MongoConstraint) : Bool :=
  match pathResolve d (splitOnChar '.' kc.1.data) with
  | some v => constraintMatches kc.2 v
  | none => false

/-- `collection.find(spec)`: the documents satisfying every binding, in
store order. -/
def mongoFind (docs : List MongoDoc) (spec : MongoSpec) : List MongoDoc :=
  docs.filter (fun d => spec.all (docMatchesBinding d))

def optValLt : Option MongoValue → Option MongoValue → Bool
  | none, some _ => true
  | some a, some b => mongoLtB a b
  | _, _ => false

/-- Comparison of two documents under a sort specification (missing
fields sort first ascending, approximating the native order; no claim
inspects the resulting order). -/
def sortKeyLe (ord : List (String × Bool)) (a b : MongoDoc) : Bool :=
  match ord with
  | [] => true
  | (p, desc) :: rest =>
    let va := pathResolve a (splitOnChar '.' p.data)
    let vb := pathResolve b (splitOnChar '.' p.data)
    if optValBeq va vb then sortKeyLe rest a b
    else if desc then optValLt vb va else optValLt va vb

def insSorted (le : MongoDoc → MongoDoc → Bool) (a : MongoDoc) :
    List MongoDoc → List MongoDoc
  | [] => [a]
  | b :: bs => if le b a then b :: insSorted le a bs else a :: b :: bs

/-- `cursor.sort(order)` (insertion sort under `sortKeyLe`). -/
def mongoSort (docs : List MongoDoc) (ord : List (String × Bool)) : List MongoDoc :=
  docs.foldr (insSorted (sortKeyLe ord)) []

/-- The ancestor part of the spec: `spec["_id"] =
re.compile("^%s.*$" % __id_for_key(ancestor))`; a pattern `re.compile`
rejects raises at translation time. -/
def initialSpec (q : Query) : Except StubError MongoSpec :=
  match q.ancestorK with
  | none => .ok []
  | some anc =>
    match compileRegex (ancestorRegexSrc (idForKey anc)) with
    | some r => .ok [("_id", .cregex r)]
    | none => .error (.internalError "re.compile raised")

def queryComponents (q : Query) : Nat :=
  q.filters.length + q.orders.length + (if q.ancestorK.isSome then 1 else 0)

def offsetExceeded (q : Query) : Bool :=
  match q.offset with
  | some o => 1000 < o
  | none => false

def componentsMsg : String :=
  "query is too large. may not have more than 100 filters + sort orders ancestor total"

def applyOffset (q : Query) (docs : List MongoDoc) : List MongoDoc :=
  match q.offset with
  | some o => docs.drop o
  | none => docs

def applyLimit (q : Query) (docs : List MongoDoc) : List MongoDoc :=
  match q.limit with
  | some l => docs.take l
  | none => docs

/-- The cursor contents a successfully translated query registers:
find, then sort (`if order:` -- only when nonempty), then skip/limit. -/
def finalDocs (st : StubState) (q : Query) (spec : MongoSpec)
    (ord : List (String × Bool)) : List MongoDoc :=
  applyLimit q (applyOffset q
    (if ord.isEmpty then mongoFind (collectionOf st q.kind) spec
     else mongoSort (mongoFind (collectionOf st q.kind) spec) ord))

/-- `_Dynamic_RunQuery`.  Returns the state, the cursor handle, and the
more-results flag.  The query-history bookkeeping (a per-process
frequency table) has no observable effect on any response and is not
modelled. -/
def runQuery (st : StubState) (q : Query) :
    Except StubError (StubState × Nat × Bool) :=
  if offsetExceeded q then .error (.badRequest "Too big query offset.")
  else if 100 < queryComponents q then .error (.badRequest componentsMsg)
  else
    match (collectionOf st q.kind).head? with
    | none => .ok (st, 0, false)
    | some protoDoc =>
      match entityForMongoDocument protoDoc with
      | none => .error (.internalError "prototype decode raised")
      | some protoEnt =>
        match initialSpec q with
        | .error e => .error e
        | .ok spec0 =>
          match addFilters q.filters protoEnt.props spec0 with
          | .error e => .error e
          | .ok none => .ok (st, 0, false)
          | .ok (some spec) =>
            match translateOrder q.orders protoEnt.props with
            | none => .ok (st, 0, false)
            | some ord =>
              .ok ({ st with
                      nextCursor := st.nextCursor + 1,
                      queries := (st.nextCursor, finalDocs st q spec ord) :: st.queries },
                   st.nextCursor, true)

/-- `_Dynamic_Next`: sentinel handle `0` yields an empty closed result;
an unknown handle raises the bad-request application error; a known
handle drains up to `count` documents, decoding each, and reports
more-results `true` exactly when the loop was not cut short by
exhaustion. -/
def nextCall (st : StubState) (handle : Nat) (count : Nat) :
    Except StubError (StubState × List Entity × Bool) :=
  if handle = 0 then .ok (st, [], false)
  else
    match findCursor st.queries handle with
    | none => .error (.badRequest ("Cursor " ++ toString handle ++ " not found"))
    | some docs =>
      if count ≤ docs.length then
        match (docs.take count).mapM entityForMongoDocument with
        | some ents =>
          .ok ({ st with queries := setCursor st.queries handle (docs.drop count) },
               ents, true)
        | none => .error (.internalError "result decode raised")
      else
        match docs.mapM entityForMongoDocument with
        | some ents =>
          .ok ({ st with queries := setCursor st.queries handle [] }, ents, false)
        | none => .error (.internalError "result decode raised")

/-- The soft-fail conditions of `_Dynamic_RunQuery`: the target kind holds
no sample entity; two filter clauses bind to one spec key (after the
earlier translation stages went through); or an order property is
unorderable or absent from the sample. -/
def SoftFail (st : StubState) (q : Query) : Prop :=
  (collectionOf st q.kind).head? = none ∨
  (∃ pd pe spec0, (collectionOf st q.kind).head? = some pd ∧
      entityForMongoDocument pd = some pe ∧
      initialSpec q = .ok spec0 ∧
      addFilters q.filters pe.props spec0 = .ok none) ∨
  (∃ pd pe spec0 spec, (collectionOf st q.kind).head? = some pd ∧
      entityForMongoDocument pd = some pe ∧
      initialSpec q = .ok spec0 ∧
      addFilters q.filters pe.props spec0 = .ok (some spec) ∧
      translateOrder q.orders pe.props = none)

def putReturnedIdents (st : StubState) (e : Entity) (r : Int) : Option (List PathId) :=
  match putEntity st e r with
  | .ok (_, k) => some (k.map PathElem.ident)
  | .error _ => none

theorem digitVal_digitChar {d : Nat} (h : d < 10) : digitVal (digitChar d) = d := by
  interval_cases d <;> decide

theorem isDigitChar_digitChar (d : Nat) : isDigitChar (digitChar d) = true := by
  unfold digitChar
  split <;> decide

theorem natToDigitsAux_ne_nil : ∀ {fuel n : Nat}, n < fuel → natToDigitsAux fuel n ≠ [] := by
  intro fuel
  induction fuel with
  | zero => intro n h; omega
  | succ f ih =>
    intro n _
    simp only [natToDigitsAux]
    split <;> simp

theorem natToDigits_ne_nil (n : Nat) : natToDigits n ≠ [] :=
  natToDigitsAux_ne_nil (Nat.lt_succ_self n)

theorem natToDigitsAux_all_digits :
    ∀ {fuel n : Nat}, n < fuel → (natToDigitsAux fuel n).all isDigitChar = true := by
  intro fuel
  induction fuel with
  | zero => intro n h; omega
  | succ f ih =>
    intro n hn
    simp only [natToDigitsAux]
    split
    · simp [isDigitChar_digitChar]
    · rename_i h
      rw [List.all_append]
      have hrec := ih (n := n / 10) (by omega)
      simp [hrec, isDigitChar_digitChar]

theorem natToDigits_all_digits (n : Nat) : (natToDigits n).all isDigitChar = true :=
  natToDigitsAux_all_digits (Nat.lt_succ_self n)

theorem digitsVal_append_digit (l : List Char) (c : Char) :
    digitsVal (l ++ [c]) = 10 * digitsVal l + digitVal c := by
  simp [digitsVal, List.foldl_append]

theorem digitsVal_natToDigitsAux :
    ∀ {fuel n : Nat}, n < fuel → digitsVal (natToDigitsAux fuel n) = n := by
  intro fuel
  induction fuel with
  | zero => intro n h; omega
  | succ f ih =>
    intro n hn
    simp only [natToDigitsAux]
    split
    · rename_i h
      simp [digitsVal, digitVal_digitChar h]
    · rename_i h
      rw [digitsVal_append_digit, ih (n := n / 10) (by omega),
        digitVal_digitChar (Nat.mod_lt _ (by omega))]
      omega

theorem digitsVal_natToDigits (n : Nat) : digitsVal (natToDigits n) = n :=
  digitsVal_natToDigitsAux (Nat.lt_succ_self n)

theorem parseDigits_natToDigits (n : Nat) : parseDigits (natToDigits n) = some n := by
  have h1 := natToDigits_ne_nil n
  have h2 := natToDigits_all_digits n
  simp only [parseDigits, digitsVal_natToDigits]
  rw [if_pos]
  simp only [Bool.and_eq_true, h2, and_true, Bool.not_eq_true']
  cases h : (natToDigits n).isEmpty
  · rfl
  · exact absurd (List.isEmpty_iff.mp h) h1

theorem head_natToDigits_ne_neg (n : Nat) {c : Char} {t : List Char}
    (h : natToDigits n = c :: t) : c ≠ '-' := by
  have h2 := natToDigits_all_digits n
  rw [h] at h2
  simp only [List.all_cons, Bool.and_eq_true] at h2
  intro hc
  rw [hc] at h2
  exact absurd h2.1 (by decide)

/-- Printing then parsing an integer is the identity (Python
`int(str(i)) == i`). -/
theorem pyIntOfChars_intToChars (i : Int) : pyIntOfChars (intToChars i) = some i := by
  by_cases hneg : i < 0
  · rw [intToChars, if_pos hneg]
    unfold pyIntOfChars
    split
    · rename_i rest heq
      injection heq with _ h2
      subst h2
      rw [parseDigits_natToDigits]
      have : Int.ofNat i.natAbs = -i := Int.ofNat_natAbs_of_nonpos (le_of_lt hneg)
      show some (-(Int.ofNat i.natAbs)) = some i
      rw [this, neg_neg]
    · rename_i hno
      exact absurd rfl (hno (natToDigits i.natAbs))
  · have h0 : intToChars i = natToDigits i.natAbs := by simp [intToChars, hneg]
    rw [h0]
    rcases hd : natToDigits i.natAbs with _ | ⟨c, t⟩
    · exact absurd hd (natToDigits_ne_nil _)
    · have hc : c ≠ '-' := head_natToDigits_ne_neg _ hd
      unfold pyIntOfChars
      split
      · rename_i heq
        injection heq with h1 _
        exact absurd h1 hc
      · rw [← hd, parseDigits_natToDigits]
        have : Int.ofNat i.natAbs = i := Int.natAbs_of_nonneg (by omega)
        show some (Int.ofNat i.natAbs) = some i
        rw [this]

theorem splitOnChar_ne_nil (sep : Char) (l : List Char) : splitOnChar sep l ≠ [] := by
  cases l with
  | nil => simp [splitOnChar]
  | cons c rest =>
    simp only [splitOnChar]
    split <;> simp

theorem splitOnChar_no_sep {sep : Char} {p : List Char} (h : ¬ sep ∈ p) :
    splitOnChar sep p = [p] := by
  induction p with
  | nil => rfl
  | cons c rest ih =>
    simp only [List.mem_cons, not_or] at h
    have hcs : ¬ c = sep := fun hc => h.1 hc.symm
    simp only [splitOnChar]
    simp only [ih h.2]
    simp [hcs]

theorem splitOnChar_append_sep {sep : Char} {p : List Char} (t : List Char) (h : ¬ sep ∈ p) :
    splitOnChar sep (p ++ sep :: t) = p :: splitOnChar sep t := by
  induction p with
  | nil =>
    show splitOnChar sep (sep :: t) = [] :: splitOnChar sep t
    simp [splitOnChar]
  | cons c rest ih =>
    simp only [List.mem_cons, not_or] at h
    have hcs : ¬ c = sep := fun hc => h.1 hc.symm
    simp only [List.cons_append, splitOnChar, List.append_eq]
    simp only [ih h.2]
    simp [hcs]

/-- `split` undoes `join` when no part contains the separator. -/
theorem splitOnChar_joinParts {sep : Char} {parts : List (List Char)}
    (hne : parts ≠ []) (h : ∀ p ∈ parts, ¬ sep ∈ p) :
    splitOnChar sep (joinParts sep parts) = parts := by
  induction parts with
  | nil => exact absurd rfl hne
  | cons p ps ih =>
    cases ps with
    | nil =>
      simp only [joinParts]
      exact splitOnChar_no_sep (h p (by simp))
    | cons q qs =>
      have : joinParts sep (p :: q :: qs) = p ++ sep :: joinParts sep (q :: qs) := rfl
      rw [this, splitOnChar_append_sep _ (h p (by simp)),
        ih (by simp) (fun r hr => h r (List.mem_cons_of_mem _ hr))]

theorem joinParts_append {sep : Char} {a b : List (List Char)} (ha : a ≠ []) (hb : b ≠ []) :
    joinParts sep (a ++ b) = joinParts sep a ++ sep :: joinParts sep b := by
  induction a with
  | nil => exact absurd rfl ha
  | cons p ps ih =>
    cases ps with
    | nil =>
      cases b with
      | nil => exact absurd rfl hb
      | cons q qs => rfl
    | cons r rs =>
      have h1 : joinParts sep ((p :: r :: rs) ++ b) = p ++ sep :: joinParts sep ((r :: rs) ++ b) := by
        rcases b with _ | _ <;> rfl
      have h2 : joinParts sep (p :: r :: rs) = p ++ sep :: joinParts sep (r :: rs) := rfl
      rw [h1, ih (by simp), h2]
      simp

theorem mem_intToChars_digit_or_neg {c : Char} {i : Int} (h : c ∈ intToChars i) :
    isDigitChar c = true ∨ c = '-' := by
  unfold intToChars at h
  have hdig : ∀ m : Nat, c ∈ natToDigits m → isDigitChar c = true := by
    intro m hm
    have := natToDigits_all_digits m
    rw [List.all_eq_true] at this
    exact this c hm
  split at h
  · rcases List.mem_cons.mp h with h1 | h1
    · exact Or.inr h1
    · exact Or.inl (hdig _ h1)
  · exact Or.inl (hdig _ h)

theorem sep_not_mem_id_part (i : Int) : ¬ sepChar ∈ ('\t' :: intToChars i) := by
  intro h
  rcases List.mem_cons.mp h with h1 | h1
  · exact absurd h1 (by decide)
  · rcases mem_intToChars_digit_or_neg h1 with h2 | h2
    · exact absurd h2 (by decide)
    · exact absurd h2 (by decide)

theorem wfName_not_sep {s : List Char} (h : wfName s = true) : ¬ sepChar ∈ s := by
  simp [wfName] at h
  exact h.1

theorem wfName_head {s : List Char} (h : wfName s = true) : s.head? ≠ some '\t' := by
  simp [wfName] at h
  exact h.2

theorem fromDb_not_tab {s : List Char} (h : s.head? ≠ some '\t') :
    fromDb s = some (.pstr s) := by
  cases s with
  | nil => rfl
  | cons c t =>
    have hc : c ≠ '\t' := by
      intro hc
      exact h (by rw [hc]; rfl)
    unfold fromDb
    split
    · rename_i heq
      injection heq with h1 _
      exact absurd h1 hc
    · rfl

theorem fromDb_id_part (i : Int) : fromDb ('\t' :: intToChars i) = some (.pint i) := by
  unfold fromDb
  split
  · rename_i heq
    injection heq with _ h2
    subst h2
    rw [pyIntOfChars_intToChars]
    rfl
  · rename_i hno
    exact absurd rfl (hno (intToChars i))

theorem flatMap_dbPath_ne_nil {k : List PathElem} (h : k ≠ []) :
    k.flatMap dbPathOfElem ≠ [] := by
  cases k with
  | nil => exact absurd rfl h
  | cons e t => simp [dbPathOfElem]

theorem flatMap_dbPath_sep_free {k : List PathElem} (h : k.all wfElem = true) :
    ∀ p ∈ k.flatMap dbPathOfElem, ¬ sepChar ∈ p := by
  intro p hp
  rw [List.mem_flatMap] at hp
  obtain ⟨e, he, hpe⟩ := hp
  rw [List.all_eq_true] at h
  have hw := h e he
  obtain ⟨ekind, eid⟩ := e
  unfold wfElem at hw
  rw [Bool.and_eq_true] at hw
  cases eid with
  | name s =>
    simp only [dbPathOfElem, List.mem_cons, List.not_mem_nil, or_false] at hpe
    rcases hpe with h1 | h1
    · subst h1
      exact wfName_not_sep hw.1
    · subst h1
      exact wfName_not_sep hw.2
  | num i =>
    simp only [dbPathOfElem, List.mem_cons, List.not_mem_nil, or_false] at hpe
    rcases hpe with h1 | h1
    · subst h1
      exact wfName_not_sep hw.1
    · subst h1
      exact sep_not_mem_id_part i

theorem decode_parts_of_wf {k : List PathElem} (h : k.all wfElem = true) :
    ((k.flatMap dbPathOfElem).mapM fromDb).bind pairParts = some k := by
  induction k with
  | nil => rfl
  | cons e t ih =>
    rw [List.all_cons, Bool.and_eq_true] at h
    obtain ⟨ekind, eid⟩ := e
    have hw := h.1
    unfold wfElem at hw
    rw [Bool.and_eq_true] at hw
    have hkind : fromDb ekind = some (.pstr ekind) :=
      fromDb_not_tab (wfName_head hw.1)
    have hrest := ih h.2
    cases eid with
    | name s =>
      have hname : fromDb s = some (.pstr s) := fromDb_not_tab (wfName_head hw.2)
      have hflat : (PathElem.mk ekind (.name s) :: t).flatMap dbPathOfElem =
          ekind :: s :: t.flatMap dbPathOfElem := by
        simp [dbPathOfElem]
      rw [hflat, List.mapM_cons, List.mapM_cons, hkind, hname]
      rcases hmm : (t.flatMap dbPathOfElem).mapM fromDb with _ | parts
      · rw [hmm] at hrest
        simp at hrest
      · rw [hmm] at hrest
        simp only [Option.some_bind] at hrest
        simp only [Option.bind_eq_bind, Option.some_bind, Option.pure_def]
        show pairParts (.pstr ekind :: .pstr s :: parts) = some (PathElem.mk ekind (.name s) :: t)
        unfold pairParts
        rw [hrest]
        rfl
    | num i =>
      have hflat : (PathElem.mk ekind (.num i) :: t).flatMap dbPathOfElem =
          ekind :: ('\t' :: intToChars i) :: t.flatMap dbPathOfElem := by
        simp [dbPathOfElem]
      rw [hflat, List.mapM_cons, List.mapM_cons, hkind, fromDb_id_part]
      rcases hmm : (t.flatMap dbPathOfElem).mapM fromDb with _ | parts
      · rw [hmm] at hrest
        simp at hrest
      · rw [hmm] at hrest
        simp only [Option.some_bind] at hrest
        simp only [Option.bind_eq_bind, Option.some_bind, Option.pure_def]
        show pairParts (.pstr ekind :: .pint i :: parts) = some (PathElem.mk ekind (.num i) :: t)
        unfold pairParts
        rw [hrest]
        rfl

/-- Round trip of the key codec on well-formed keys. -/
theorem keyForId_idForKey {k : List PathElem} (h : wfKey k = true) :
    keyForId (idForKey k) = some k := by
  rw [wfKey, Bool.and_eq_true] at h
  have hne : k ≠ [] := by
    cases k
    · simp at h
    · simp
  unfold keyForId idForKey
  rw [splitOnChar_joinParts (flatMap_dbPath_ne_nil hne) (flatMap_dbPath_sep_free h.2)]
  have hd := decode_parts_of_wf h.2
  rcases hmm : (k.flatMap dbPathOfElem).mapM fromDb with _ | parts
  · rw [hmm] at hd
    simp at hd
  · rw [hmm] at hd
    simp only [Option.some_bind] at hd
    simp only [Option.bind_eq_bind, Option.some_bind]
    rw [hd]
    simp only [Option.some_bind]
    have hni : ¬ (k.isEmpty = true) := by simp [hne]
    rw [if_neg hni]

theorem isPrefixOf_append_self (a b : List Char) : a.isPrefixOf (a ++ b) = true := by
  induction a with
  | nil => simp [List.isPrefixOf]
  | cons c t ih => simp [List.isPrefixOf, ih]

theorem idForKey_append {k ext : List PathElem} (hk : k ≠ []) (he : ext ≠ []) :
    idForKey (k ++ ext) = idForKey k ++ sepChar :: idForKey ext := by
  unfold idForKey
  rw [List.flatMap_append,
    joinParts_append (flatMap_dbPath_ne_nil hk) (flatMap_dbPath_ne_nil he)]

/-- C2 (amended): for every well-formed hierarchical key (nonempty path,
kinds and names free of the separator byte `'\x08'` and not beginning with
the numeric-id marker byte `'\t'`), decoding the encoded identifier
reproduces the key exactly, whether the identifiers are names, positive
numeric ids, or negative numeric ids. -/
theorem key_codec_roundtrip (k : List PathElem) (h : wfKey k = true) :
    keyForId (idForKey k) = some k :=
  keyForId_idForKey h

/-- Witness for `key_codec_roundtrip`: a three-level key whose identifiers
are a name, a positive numeric id, and a negative numeric id. -/
theorem key_codec_roundtrip_witness :
    wfKey [PathElem.mk ['P'] (.name ['a']), PathElem.mk ['C'] (.num 42),
        PathElem.mk ['D'] (.num (-7))] = true ∧
    keyForId (idForKey [PathElem.mk ['P'] (.name ['a']), PathElem.mk ['C'] (.num 42),
        PathElem.mk ['D'] (.num (-7))]) =
      some [PathElem.mk ['P'] (.name ['a']), PathElem.mk ['C'] (.num 42),
        PathElem.mk ['D'] (.num (-7))] :=
  ⟨by decide, key_codec_roundtrip _ (by decide)⟩

/-- C2 counterexample: the key `[("K", name "\t5")]` does not contain the
separator byte, yet decoding its encoding yields the key `[("K", id 5)]`
(the name is mistaken for a marker-prefixed numeric id), so the round trip
as claimed fails for it. -/
theorem key_codec_roundtrip_cx :
    keyForId (idForKey [PathElem.mk ['K'] (.name ['\t', '5'])]) ≠
        some [PathElem.mk ['K'] (.name ['\t', '5'])] ∧
    keyForId (idForKey [PathElem.mk ['K'] (.name ['\t', '5'])]) =
        some [PathElem.mk ['K'] (.num 5)] := by
  exact ⟨by decide, by decide⟩

/-- C5: the encoding of a key is a proper prefix of the encoding of any of
its descendants: encoding the extended path appends the separator byte and
the extension's encoding, so the result strictly extends the ancestor's
encoding. -/
theorem encode_ancestor_proper_prefix (k ext : List PathElem)
    (hk : k ≠ []) (he : ext ≠ []) :
    idForKey (k ++ ext) = idForKey k ++ sepChar :: idForKey ext ∧
    (idForKey k).isPrefixOf (idForKey (k ++ ext)) = true ∧
    idForKey (k ++ ext) ≠ idForKey k := by
  have h1 := idForKey_append hk he
  refine ⟨h1, ?_, ?_⟩
  · rw [h1]
    exact isPrefixOf_append_self _ _
  · rw [h1]
    intro hcontra
    have hlen : (idForKey k ++ sepChar :: idForKey ext).length = (idForKey k).length := by
      rw [hcontra]
    simp at hlen

/-- Witness for `encode_ancestor_proper_prefix` on a concrete ancestor and
a one-level extension. -/
theorem encode_ancestor_proper_prefix_witness :
    idForKey ([PathElem.mk ['A'] (.name ['x'])] ++ [PathElem.mk ['B'] (.num 1)]) =
        idForKey [PathElem.mk ['A'] (.name ['x'])] ++
          sepChar :: idForKey [PathElem.mk ['B'] (.num 1)] ∧
    (idForKey [PathElem.mk ['A'] (.name ['x'])]).isPrefixOf
        (idForKey ([PathElem.mk ['A'] (.name ['x'])] ++ [PathElem.mk ['B'] (.num 1)])) = true ∧
    idForKey ([PathElem.mk ['A'] (.name ['x'])] ++ [PathElem.mk ['B'] (.num 1)]) ≠
        idForKey [PathElem.mk ['A'] (.name ['x'])] :=
  encode_ancestor_proper_prefix _ _ (by decide) (by decide)

theorem length_pyInsert (a : PyScalar) (l : List PyScalar) :
    (pyInsert a l).length = l.length + 1 := by
  induction l with
  | nil => rfl
  | cons b bs ih =>
    simp only [pyInsert]
    split
    · simp [ih]
    · simp

theorem length_pySorted (l : List PyScalar) : (pySorted l).length = l.length := by
  induction l with
  | nil => rfl
  | cons a t ih =>
    show (pyInsert a (pySorted t)).length = t.length + 1
    rw [length_pyInsert, ih]

theorem pySorted_ne_nil {l : List PyScalar} (h : l ≠ []) : pySorted l ≠ [] := by
  intro hc
  have := length_pySorted l
  rw [hc] at this
  cases l
  · exact h rfl
  · simp at this

/-- Scalar round trip of the value codec. -/
theorem decodeScalar_encodeScalar {s : PyScalar} (h : encodableScalar s = true) :
    decodeScalar (encodeScalar s) = some s := by
  cases s with
  | keyv k =>
    have hwf : wfKey k = true := h
    have hred : decodeScalar (encodeScalar (.keyv k)) =
        (keyForId (idForKey k)).map PyScalar.keyv := rfl
    rw [hred, keyForId_idForKey hwf]
    rfl
  | _ => rfl

theorem mapM_decode_encode {l : List PyScalar} (h : l.all encodableScalar = true) :
    ((l.map encodeScalar).mapM decodeScalar) = some l := by
  induction l with
  | nil => rfl
  | cons a t ih =>
    rw [List.all_cons, Bool.and_eq_true] at h
    rw [List.map_cons, List.mapM_cons, decodeScalar_encodeScalar h.1, ih h.2]
    rfl

theorem decodeValue_encodeScalar (s : PyScalar) :
    decodeValue (encodeScalar s) = (decodeScalar (encodeScalar s)).map .scalar := by
  cases s <;> rfl

/-- Round trip of the value codec on its domain (shared helper). -/
theorem decodeValue_encodeValue (v : PyValue) (h : encodable v = true) :
    (encodeValue v).bind decodeValue = some v := by
  cases v with
  | scalar s =>
    have hs : encodableScalar s = true := h
    show (decodeValue (encodeScalar s)) = some (.scalar s)
    rw [decodeValue_encodeScalar, decodeScalar_encodeScalar hs]
    rfl
  | list l =>
    unfold encodable at h
    rw [Bool.and_eq_true] at h
    have hne : l ≠ [] := by
      cases l
      · simp at h
      · simp
    rcases hs : pySorted l with _ | ⟨m, ms⟩
    · exact absurd hs (pySorted_ne_nil hne)
    · have hred : decodeValue (.mdoc [("class", .mstr "list"),
            ("list", .mlist (l.map encodeScalar)),
            ("ascending_sort_key", encodeScalar m),
            ("descending_sort_key", encodeScalar (ms.getLastD m))]) =
          ((l.map encodeScalar).mapM decodeScalar).map .list := rfl
      simp only [encodeValue, hs, Option.some_bind]
      rw [hred, mapM_decode_encode h.2]
      rfl

/-- C1 (amended): for every supported logical value in the codec's domain
-- booleans, integers, floats, plain strings, blobs, ratings, categories,
well-formed reference keys, users, long text, IM handles, geo-points,
emails, and nonempty lists of mixed scalar types -- decoding the stored
form yields an equal value of the same logical type.  (The original
claim's inclusion of the empty list fails: see
`value_codec_roundtrip_cx`.) -/
theorem value_codec_roundtrip (v : PyValue) (h : encodable v = true) :
    (encodeValue v).bind decodeValue = some v :=
  decodeValue_encodeValue v h

/-- Witness for `value_codec_roundtrip`: a mixed-scalar list holding an
integer, a plain string, a rating, and a reference key. -/
theorem value_codec_roundtrip_witness :
    encodable (PyValue.list [.pint 5, .pstr "a", .rating 3,
        .keyv [PathElem.mk ['K'] (.name ['n'])]]) = true ∧
    (encodeValue (PyValue.list [.pint 5, .pstr "a", .rating 3,
        .keyv [PathElem.mk ['K'] (.name ['n'])]])).bind decodeValue =
      some (PyValue.list [.pint 5, .pstr "a", .rating 3,
        .keyv [PathElem.mk ['K'] (.name ['n'])]]) :=
  ⟨by decide, value_codec_roundtrip _ (by decide)⟩

/-- C1 counterexample: encoding the empty list raises (`sorted(value)[0]`
is an `IndexError`), so `FromStorage(ToStorage([])) == []` fails: there is
no stored form at all. -/
theorem value_codec_roundtrip_cx :
    (encodeValue (PyValue.list [])).bind decodeValue ≠ some (PyValue.list []) ∧
    encodeValue (PyValue.list []) = none :=
  ⟨by decide, rfl⟩

theorem rmatchF_congr :
    ∀ {m k : Nat} {ps : List RItem} {s : List Char},
      ps.length + s.length < m → ps.length + s.length < k →
      rmatchF m ps s = rmatchF k ps s := by
  intro m
  induction m with
  | zero => intro k ps s h1 _; omega
  | succ g ih =>
    intro k ps s h1 h2
    cases k with
    | zero => omega
    | succ g2 =>
      cases ps with
      | nil => rfl
      | cons it ps2 =>
        cases it with
        | ione a =>
          cases s with
          | nil => rfl
          | cons c s2 =>
            simp only [List.length_cons] at h1 h2
            simp only [rmatchF]
            rw [ih (k := g2) (by omega) (by omega)]
        | istar a =>
          cases s with
          | nil =>
            simp only [List.length_cons, List.length_nil] at h1 h2
            simp only [rmatchF]
            rw [ih (k := g2) (by first | omega | (simp only [List.length_cons, List.length_nil]; omega))
              (by first | omega | (simp only [List.length_cons, List.length_nil]; omega))]
          | cons c s2 =>
            simp only [List.length_cons] at h1 h2
            simp only [rmatchF]
            rw [ih (k := g2) (by first | omega | (simp only [List.length_cons, List.length_nil]; omega))
              (by first | omega | (simp only [List.length_cons, List.length_nil]; omega)),
              ih (k := g2) (by first | omega | (simp only [List.length_cons, List.length_nil]; omega))
              (by first | omega | (simp only [List.length_cons, List.length_nil]; omega))]
        | iplus a =>
          cases s with
          | nil => rfl
          | cons c s2 =>
            simp only [List.length_cons] at h1 h2
            simp only [rmatchF]
            rw [ih (k := g2) (by first | omega | (simp only [List.length_cons, List.length_nil]; omega))
              (by first | omega | (simp only [List.length_cons, List.length_nil]; omega))]

theorem rmatch_nil_eq (s : List Char) : rmatch [] s = s.isEmpty := by
  cases s <;> rfl

theorem rmatch_ione_nil (a : RAtom) (ps : List RItem) :
    rmatch (.ione a :: ps) [] = false := rfl

theorem rmatch_ione_cons (a : RAtom) (ps : List RItem) (c : Char) (s2 : List Char) :
    rmatch (.ione a :: ps) (c :: s2) = (amatch a c && rmatch ps s2) := by
  have h0 : rmatch (.ione a :: ps) (c :: s2) =
      (amatch a c &&
        rmatchF ((RItem.ione a :: ps).length + (c :: s2).length) ps s2) := rfl
  rw [h0, rmatchF_congr (k := ps.length + s2.length + 1)
    (by simp only [List.length_cons]; omega) (by omega)]
  rfl

theorem rmatch_istar_nil (a : RAtom) (ps : List RItem) :
    rmatch (.istar a :: ps) [] = rmatch ps [] := by
  have h0 : rmatch (.istar a :: ps) [] =
      (rmatchF ((RItem.istar a :: ps).length + ([] : List Char).length) ps [] || false) := rfl
  rw [h0, rmatchF_congr (k := ps.length + ([] : List Char).length + 1)
    (by simp only [List.length_cons, List.length_nil]; omega)
    (by simp only [List.length_nil]; omega)]
  simp only [Bool.or_false]
  rfl

theorem rmatch_istar_cons (a : RAtom) (ps : List RItem) (c : Char) (s2 : List Char) :
    rmatch (.istar a :: ps) (c :: s2) =
      (rmatch ps (c :: s2) || (amatch a c && rmatch (.istar a :: ps) s2)) := by
  have h0 : rmatch (.istar a :: ps) (c :: s2) =
      (rmatchF ((RItem.istar a :: ps).length + (c :: s2).length) ps (c :: s2) ||
        (amatch a c &&
          rmatchF ((RItem.istar a :: ps).length + (c :: s2).length)
            (.istar a :: ps) s2)) := rfl
  rw [h0,
    @rmatchF_congr ((RItem.istar a :: ps).length + (c :: s2).length)
      (ps.length + (c :: s2).length + 1) ps (c :: s2)
      (by simp only [List.length_cons]; omega) (by simp only [List.length_cons]; omega),
    @rmatchF_congr ((RItem.istar a :: ps).length + (c :: s2).length)
      ((RItem.istar a :: ps).length + s2.length + 1) (RItem.istar a :: ps) s2
      (by simp only [List.length_cons]; omega) (by simp only [List.length_cons]; omega)]
  rfl

theorem rmatch_iplus_nil (a : RAtom) (ps : List RItem) :
    rmatch (.iplus a :: ps) [] = false := rfl

theorem rmatch_iplus_cons (a : RAtom) (ps : List RItem) (c : Char) (s2 : List Char) :
    rmatch (.iplus a :: ps) (c :: s2) = (amatch a c && rmatch (.istar a :: ps) s2) := by
  have h0 : rmatch (.iplus a :: ps) (c :: s2) =
      (amatch a c &&
        rmatchF ((RItem.iplus a :: ps).length + (c :: s2).length)
          (.istar a :: ps) s2) := rfl
  rw [h0, rmatchF_congr (k := (RItem.istar a :: ps).length + s2.length + 1)
    (by simp only [List.length_cons]; omega) (by simp only [List.length_cons]; omega)]
  rfl

theorem rmatch_stardot {s : List Char} (h : ¬ '\n' ∈ s) :
    rmatch [.istar .rdot] s = true := by
  induction s with
  | nil =>
    rw [rmatch_istar_nil, rmatch_nil_eq]
    rfl
  | cons c s2 ih =>
    simp only [List.mem_cons, not_or] at h
    have hc : amatch .rdot c = true := by
      simp only [amatch, bne_iff_ne]
      exact fun hcc => h.1 hcc.symm
    rw [rmatch_istar_cons, hc, ih h.2]
    simp

/-- A pattern of literal characters followed by `.*`, fully anchored,
accepts exactly the strings having those literals as a prefix (on
newline-free subject strings). -/
theorem rmatch_lits_stardot :
    ∀ (w s : List Char), ¬ '\n' ∈ s →
      rmatch (w.map (fun c => RItem.ione (.rchr c)) ++ [.istar .rdot]) s = w.isPrefixOf s := by
  intro w
  induction w with
  | nil =>
    intro s hs
    rw [List.map_nil, List.nil_append, rmatch_stardot hs]
    simp [List.isPrefixOf]
  | cons c w2 ih =>
    intro s hs
    cases s with
    | nil =>
      rw [List.map_cons, List.cons_append, rmatch_ione_nil]
      simp [List.isPrefixOf]
    | cons d s2 =>
      simp only [List.mem_cons, not_or] at hs
      rw [List.map_cons, List.cons_append, rmatch_ione_cons, ih s2 hs.2]
      rfl

theorem ratomOf_safe {c : Char} (h : regexMeta.contains c = false) :
    ratomOf c = some (.rchr c) := by
  have hmem : c ∉ regexMeta := by simpa using h
  have hdot : c ≠ '.' := by
    intro hc
    rw [hc] at hmem
    simp [regexMeta] at hmem
  simp [ratomOf, hdot, h, hmem]

theorem tokenize_cons_safe {c : Char} (hc : regexMeta.contains c = false)
    (q : Char) (rest : List Char) :
    tokenize (c :: q :: rest) =
      (if q = '*' then (tokenize rest).map (.istar (.rchr c) :: ·)
       else if q = '+' then (tokenize rest).map (.iplus (.rchr c) :: ·)
       else (tokenize (q :: rest)).map (.ione (.rchr c) :: ·)) := by
  rw [tokenize.eq_def]
  dsimp only
  rw [ratomOf_safe hc]

theorem tokenize_safe :
    ∀ {w : List Char}, regexSafe w = true →
      tokenize (w ++ ['.', '*']) = some (w.map (fun c => RItem.ione (.rchr c)) ++ [.istar .rdot]) := by
  intro w
  induction w with
  | nil =>
    intro _
    decide
  | cons c w2 ih =>
    intro h
    rw [regexSafe, List.all_cons, Bool.and_eq_true] at h
    have hc : regexMeta.contains c = false := by
      have := h.1
      simp only [Bool.not_eq_eq_eq_not, Bool.not_true] at this
      exact this
    have hsafe2 : regexSafe w2 = true := h.2
    cases w2 with
    | nil =>
      simp only [List.cons_append, List.nil_append]
      rw [tokenize_cons_safe hc]
      rw [if_neg (by decide), if_neg (by decide)]
      have h2 : tokenize ['.', '*'] = some [.istar .rdot] := by decide
      rw [h2]
      rfl
    | cons e w3 =>
      have he : regexMeta.contains e = false := by
        rw [regexSafe, List.all_cons, Bool.and_eq_true] at hsafe2
        have := hsafe2.1
        simp only [Bool.not_eq_eq_eq_not, Bool.not_true] at this
        exact this
      have hes : e ≠ '*' := by
        intro hee
        rw [hee] at he
        simp [regexMeta] at he
      have hep : e ≠ '+' := by
        intro hee
        rw [hee] at he
        simp [regexMeta] at he
      simp only [List.cons_append]
      rw [tokenize_cons_safe hc, if_neg hes, if_neg hep]
      rw [show e :: (w3 ++ ['.', '*']) = (e :: w3) ++ ['.', '*'] from rfl]
      rw [ih hsafe2]
      rfl

theorem compileRegex_caret (rest : List Char) :
    compileRegex ('^' :: rest) =
      (if rest.getLast? = some '$' then tokenize rest.dropLast else none) := rfl

/-- Compiling the ancestor pattern for a metacharacter-free encoded key
yields the literal-prefix matcher. -/
theorem compileRegex_ancestor {w : List Char} (h : regexSafe w = true) :
    compileRegex (ancestorRegexSrc w) =
      some (w.map (fun c => RItem.ione (.rchr c)) ++ [.istar .rdot]) := by
  unfold ancestorRegexSrc
  rw [compileRegex_caret]
  have hsplit : w ++ ['.', '*', '$'] = (w ++ ['.', '*']) ++ ['$'] := by simp
  rw [hsplit, List.getLast?_concat, List.dropLast_concat, if_pos rfl]
  exact tokenize_safe h

theorem initialSpec_error {q : Query} {e : StubError}
    (h : initialSpec q = .error e) : ∃ m, e = .internalError m := by
  unfold initialSpec at h
  split at h
  · exact absurd h (by simp)
  · split at h
    · exact absurd h (by simp)
    · exact ⟨_, (Except.error.injEq _ _).mp h.symm⟩

theorem filterBinding_error {f : FilterClause} {proto : List (String × PyValue)}
    {e : StubError} (h : filterBinding f proto = .error e) :
    ∃ m, e = .internalError m := by
  rw [filterBinding.eq_def] at h
  dsimp only at h
  repeat' split at h
  all_goals first
    | (injection h with h2; exact ⟨_, h2.symm⟩)
    | (injection h)

theorem addFilters_error :
    ∀ {fs : List FilterClause} {proto : List (String × PyValue)} {spec : MongoSpec}
      {e : StubError}, addFilters fs proto spec = .error e → ∃ m, e = .internalError m := by
  intro fs
  induction fs with
  | nil =>
    intro proto spec e h
    exact absurd h (by simp [addFilters])
  | cons f fs2 ih =>
    intro proto spec e h
    unfold addFilters at h
    split at h
    · rename_i e2 he
      injection h with h2
      subst h2
      exact filterBinding_error he
    · split at h
      · exact absurd h (by simp)
      · exact ih h

/-- C7: `_Dynamic_RunQuery` fails fast with a `BadRequestError` before any
store access when the offset exceeds 1000 or when filters + orders +
ancestor exceed 100, and raises no bad-request error from these checks
otherwise -- for every state, so no store read precedes the checks. -/
theorem query_shape_limits (st : StubState) (q : Query) :
    (offsetExceeded q = true →
      runQuery st q = .error (.badRequest "Too big query offset.")) ∧
    (offsetExceeded q = false → 100 < queryComponents q →
      runQuery st q = .error (.badRequest componentsMsg)) ∧
    (offsetExceeded q = false → queryComponents q ≤ 100 →
      ∀ msg, runQuery st q ≠ .error (.badRequest msg)) := by
  refine ⟨?_, ?_, ?_⟩
  · intro h
    simp [runQuery, h]
  · intro h1 h2
    simp [runQuery, h1, h2]
  · intro h1 h2 msg
    unfold runQuery
    rw [if_neg (by simp [h1]), if_neg (by omega)]
    split
    · simp
    · split
      · simp
      · split
        · rename_i e he
          obtain ⟨m, hm⟩ := initialSpec_error he
          simp [hm]
        · split
          · rename_i e he
            obtain ⟨m, hm⟩ := addFilters_error he
            simp [hm]
          · simp
          · split
            · simp
            · simp

/-- C3, evaluated at its failing input: with one stored entity of kind
`K` whose property `p` is `1`, a query repeating the identical filter
`p == 1` twice is dropped wholesale (cursor `0`, no more results, nothing
registered), while the same query with the filter stated once matches the
entity -- so the repeated identical filter changes the result set and the
second constraint silently discards the first instead of composing. -/
theorem duplicate_filter_drops_query :
    runQuery
        { collections := [(['K'], [[("_id", MongoValue.mstr "K\x08a"),
            ("p", MongoValue.mint 1)]])],
          nextCursor := 1, queries := [] }
        { kind := ['K'], ancestorK := none,
          filters := [{ prop := "p", op := .feq, value := .scalar (.pint 1) },
                      { prop := "p", op := .feq, value := .scalar (.pint 1) }],
          orders := [], offset := none, limit := none } =
      .ok ({ collections := [(['K'], [[("_id", MongoValue.mstr "K\x08a"),
               ("p", MongoValue.mint 1)]])],
             nextCursor := 1, queries := [] }, 0, false) ∧
    runQuery
        { collections := [(['K'], [[("_id", MongoValue.mstr "K\x08a"),
            ("p", MongoValue.mint 1)]])],
          nextCursor := 1, queries := [] }
        { kind := ['K'], ancestorK := none,
          filters := [{ prop := "p", op := .feq, value := .scalar (.pint 1) }],
          orders := [], offset := none, limit := none } =
      .ok ({ collections := [(['K'], [[("_id", MongoValue.mstr "K\x08a"),
               ("p", MongoValue.mint 1)]])],
             nextCursor := 2,
             queries := [(1, [[("_id", MongoValue.mstr "K\x08a"),
               ("p", MongoValue.mint 1)]])] }, 1, true) :=
  ⟨rfl, rfl⟩

/-- Witness for `query_shape_limits`: an offset of 1001 is rejected. -/
theorem query_shape_limits_witness :
    runQuery { collections := [], nextCursor := 1, queries := [] }
        { kind := ['K'], ancestorK := none, filters := [], orders := [],
          offset := some 1001, limit := none } =
      .error (.badRequest "Too big query offset.") :=
  (query_shape_limits { collections := [], nextCursor := 1, queries := [] }
    { kind := ['K'], ancestorK := none, filters := [], orders := [],
      offset := some 1001, limit := none }).1 (by decide)

theorem mapM_take_isSome {α β : Type} (f : α → Option β) :
    ∀ (l : List α) (n : Nat), (l.mapM f).isSome = true → ((l.take n).mapM f).isSome = true := by
  intro l
  induction l with
  | nil =>
    intro n _
    rw [List.take_nil]
    rfl
  | cons a t ih =>
    intro n h
    cases n with
    | zero =>
      rw [List.take_zero]
      rfl
    | succ n2 =>
      rw [List.take_succ_cons]
      rw [List.mapM_cons] at h ⊢
      rcases hfa : f a with _ | b
      · rw [hfa] at h
        simp at h
      · rw [hfa] at h
        rcases hmt : t.mapM f with _ | bs
        · rw [hmt] at h
          simp at h
        · have ht := ih n2 (by rw [hmt]; simp)
          rcases hmt2 : (t.take n2).mapM f with _ | bs2
          · rw [hmt2] at ht
            simp at ht
          · simp [hmt2]

/-- C8: `_Dynamic_Next` on the sentinel handle `0` yields an empty result
with more-results `false` and no error; any other handle absent from the
cursor registry raises the bad-request `CursorNotFoundError`; a registered
handle (whose documents decode) never raises. -/
theorem next_cursor_dispatch (st : StubState) (h count : Nat) :
    (nextCall st 0 count = .ok (st, [], false)) ∧
    (h ≠ 0 → findCursor st.queries h = none →
      nextCall st h count = .error (.badRequest ("Cursor " ++ toString h ++ " not found"))) ∧
    (∀ docs, h ≠ 0 → findCursor st.queries h = some docs →
      (docs.mapM entityForMongoDocument).isSome = true →
      ∃ st2 ents more, nextCall st h count = .ok (st2, ents, more)) := by
  refine ⟨by simp [nextCall], ?_, ?_⟩
  · intro h0 hf
    simp [nextCall, h0, hf]
  · intro docs h0 hf hd
    unfold nextCall
    rw [if_neg h0]
    simp only [hf]
    by_cases hc : count ≤ docs.length
    · rw [if_pos hc]
      have h2 := mapM_take_isSome entityForMongoDocument docs count hd
      obtain ⟨ents, he⟩ := Option.isSome_iff_exists.mp h2
      simp only [he]
      exact ⟨_, _, _, rfl⟩
    · rw [if_neg hc]
      obtain ⟨ents, he⟩ := Option.isSome_iff_exists.mp hd
      simp only [he]
      exact ⟨_, _, _, rfl⟩

/-- Witness for `next_cursor_dispatch`: a registry holding handle 1 with
one decodable document; handle 2 is unknown. -/
theorem next_cursor_dispatch_witness :
    nextCall { collections := [], nextCursor := 2,
               queries := [(1, [[("_id", MongoValue.mstr "K\x08a")]])] } 0 5 =
      .ok ({ collections := [], nextCursor := 2,
             queries := [(1, [[("_id", MongoValue.mstr "K\x08a")]])] }, [], false) ∧
    nextCall { collections := [], nextCursor := 2,
               queries := [(1, [[("_id", MongoValue.mstr "K\x08a")]])] } 2 5 =
      .error (.badRequest ("Cursor " ++ toString 2 ++ " not found")) ∧
    ∃ st2 ents more,
      nextCall { collections := [], nextCursor := 2,
                 queries := [(1, [[("_id", MongoValue.mstr "K\x08a")]])] } 1 5 =
        .ok (st2, ents, more) := by
  refine ⟨(next_cursor_dispatch _ 0 5).1, ?_, ?_⟩
  · exact (next_cursor_dispatch _ 2 5).2.1 (by decide) (by rfl)
  · exact (next_cursor_dispatch _ 1 5).2.2 [[("_id", MongoValue.mstr "K\x08a")]]
      (by decide) (by rfl) (by rfl)

/-- C6: a query that passes the shape checks and hits a soft-fail
condition does not raise: `_Dynamic_RunQuery` returns cursor handle `0`
with the more-results flag `false`, leaving the state untouched. -/
theorem soft_fail_empty_closed (st : StubState) (q : Query)
    (hoff : offsetExceeded q = false) (hcomp : queryComponents q ≤ 100)
    (h : SoftFail st q) :
    runQuery st q = .ok (st, 0, false) := by
  unfold runQuery
  rw [if_neg (by simp [hoff]), if_neg (by omega)]
  rcases h with h1 | ⟨pd, pe, s0, h1, h2, h3, h4⟩ | ⟨pd, pe, s0, sp, h1, h2, h3, h4, h5⟩
  · simp only [h1]
  · simp only [h1, h2, h3, h4]
  · simp only [h1, h2, h3, h4, h5]

/-- Witness for `soft_fail_empty_closed`: all three soft-fail conditions
on concrete states -- an empty kind; a duplicate filter key; an order on
a long-text property. -/
theorem soft_fail_empty_closed_witness :
    runQuery { collections := [], nextCursor := 1, queries := [] }
        { kind := ['E'], ancestorK := none, filters := [], orders := [],
          offset := none, limit := none } =
      .ok ({ collections := [], nextCursor := 1, queries := [] }, 0, false) ∧
    runQuery { collections := [(['K'], [[("_id", MongoValue.mstr "K\x08a"),
            ("p", MongoValue.mint 1)]])], nextCursor := 1, queries := [] }
        { kind := ['K'], ancestorK := none,
          filters := [{ prop := "p", op := .fgt, value := .scalar (.pint 0) },
                      { prop := "p", op := .feq, value := .scalar (.pint 2) }],
          orders := [], offset := none, limit := none } =
      .ok ({ collections := [(['K'], [[("_id", MongoValue.mstr "K\x08a"),
               ("p", MongoValue.mint 1)]])], nextCursor := 1, queries := [] }, 0, false) ∧
    runQuery { collections := [(['K'], [[("_id", MongoValue.mstr "K\x08a"),
            ("t", MongoValue.mdoc [("class", MongoValue.mstr "text"),
              ("string", MongoValue.mstr "long")])]])], nextCursor := 1, queries := [] }
        { kind := ['K'], ancestorK := none, filters := [],
          orders := [{ prop := "t", descending := false }],
          offset := none, limit := none } =
      .ok ({ collections := [(['K'], [[("_id", MongoValue.mstr "K\x08a"),
               ("t", MongoValue.mdoc [("class", MongoValue.mstr "text"),
                 ("string", MongoValue.mstr "long")])]])],
             nextCursor := 1, queries := [] }, 0, false) := by
  refine ⟨?_, ?_, ?_⟩
  · exact soft_fail_empty_closed _ _ (by decide) (by decide) (Or.inl rfl)
  · exact soft_fail_empty_closed _ _ (by decide) (by decide)
      (Or.inr (Or.inl ⟨_, _, _, rfl, rfl, rfl, rfl⟩))
  · exact soft_fail_empty_closed _ _ (by decide) (by decide)
      (Or.inr (Or.inr ⟨_, _, _, _, rfl, rfl, rfl, rfl, rfl⟩))

/-- C10: every query that passes the shape checks and translates
successfully registers a live cursor under a fresh nonzero handle and
returns the more-results flag `true` -- unconditionally, independent of
how many stored documents the registered cursor actually holds (zero
included), so the flag at query time never distinguishes an empty match
set from a nonempty one. -/
theorem runquery_always_more (st : StubState) (q : Query) (pd : MongoDoc)
    (pe : Entity) (spec0 spec : MongoSpec) (ord : List (String × Bool))
    (hoff : offsetExceeded q = false) (hcomp : queryComponents q ≤ 100)
    (hp : (collectionOf st q.kind).head? = some pd)
    (hd : entityForMongoDocument pd = some pe)
    (hs : initialSpec q = .ok spec0)
    (hf : addFilters q.filters pe.props spec0 = .ok (some spec))
    (ho : translateOrder q.orders pe.props = some ord)
    (hn : 1 ≤ st.nextCursor) :
    runQuery st q =
      .ok ({ st with
              nextCursor := st.nextCursor + 1
              queries := (st.nextCursor, finalDocs st q spec ord) :: st.queries },
           st.nextCursor, true) ∧
    st.nextCursor ≠ 0 ∧
    findCursor ((st.nextCursor, finalDocs st q spec ord) :: st.queries) st.nextCursor =
      some (finalDocs st q spec ord) := by
  refine ⟨?_, by omega, ?_⟩
  · unfold runQuery
    rw [if_neg (by simp [hoff]), if_neg (by omega)]
    simp only [hp, hd, hs, hf, ho]
  · simp [findCursor]

/-- Witness for `runquery_always_more`: a query whose filter matches no
stored document still registers a (empty) cursor and reports
more-results `true`. -/
theorem runquery_always_more_witness :
    runQuery { collections := [(['K'], [[("_id", MongoValue.mstr "K\x08a"),
            ("p", MongoValue.mint 1)]])], nextCursor := 1, queries := [] }
        { kind := ['K'], ancestorK := none,
          filters := [{ prop := "p", op := .feq, value := .scalar (.pint 99) }],
          orders := [], offset := none, limit := none } =
      .ok ({ collections := [(['K'], [[("_id", MongoValue.mstr "K\x08a"),
               ("p", MongoValue.mint 1)]])], nextCursor := 2,
             queries := [(1, [])] }, 1, true) := by
  have h := (runquery_always_more
    { collections := [(['K'], [[("_id", MongoValue.mstr "K\x08a"),
        ("p", MongoValue.mint 1)]])], nextCursor := 1, queries := [] }
    { kind := ['K'], ancestorK := none,
      filters := [{ prop := "p", op := .feq, value := .scalar (.pint 99) }],
      orders := [], offset := none, limit := none }
    [("_id", MongoValue.mstr "K\x08a"), ("p", MongoValue.mint 1)]
    { key := [PathElem.mk ['K'] (.name ['a'])],
      props := [("p", .scalar (.pint 1))] }
    [] [("p", .ceq (MongoValue.mint 99))] []
    (by decide) (by decide) rfl rfl rfl rfl rfl (by decide)).1
  exact h

theorem splitOnChar_id_path : splitOnChar '.' "_id".data = ["_id".data] := by decide

/-- C4 (amended): for an ancestor-scoped query over a non-empty kind
whose encoded ancestor id contains no regex metacharacter, against
stored documents whose string ids contain no newline, the registered
result set is exactly the stored documents whose `_id` has the
ancestor's encoded id as a string prefix -- at any depth -- and no
others.  (Unescaped metacharacters break this: see
`ancestor_query_prefix_cx`.) -/
theorem ancestor_query_prefix (st : StubState) (kind : List Char) (anc : List PathElem)
    (pd : MongoDoc) (pe : Entity)
    (hp : (collectionOf st kind).head? = some pd)
    (hd : entityForMongoDocument pd = some pe)
    (hsafe : regexSafe (idForKey anc) = true)
    (hnl : ∀ d ∈ collectionOf st kind, ∀ s : String,
        getField d "_id" = some (.mstr s) → ¬ '\n' ∈ s.data) :
    runQuery st { kind := kind, ancestorK := some anc, filters := [], orders := [],
                  offset := none, limit := none } =
      .ok ({ st with
              nextCursor := st.nextCursor + 1
              queries := (st.nextCursor,
                (collectionOf st kind).filter (fun d =>
                  match getField d "_id" with
                  | some (.mstr s) => (idForKey anc).isPrefixOf s.data
                  | _ => false)) :: st.queries },
           st.nextCursor, true) := by
  have hspec : initialSpec
      { kind := kind, ancestorK := some anc, filters := [],
        orders := [], offset := none, limit := none } =
      .ok [("_id", .cregex ((idForKey anc).map (fun c => RItem.ione (.rchr c)) ++
        [.istar .rdot]))] := by
    unfold initialSpec
    simp only [compileRegex_ancestor hsafe]
  have hfind : mongoFind (collectionOf st kind)
      [("_id", .cregex ((idForKey anc).map (fun c => RItem.ione (.rchr c)) ++
        [.istar .rdot]))] =
      (collectionOf st kind).filter (fun d =>
        match getField d "_id" with
        | some (.mstr s) => (idForKey anc).isPrefixOf s.data
        | _ => false) := by
    unfold mongoFind
    apply List.filter_congr
    intro d hd2
    simp only [List.all_cons, List.all_nil, Bool.and_true]
    unfold docMatchesBinding
    rw [splitOnChar_id_path]
    have hres : pathResolve d ["_id".data] = getField d "_id" := rfl
    rw [hres]
    rcases hg : getField d "_id" with _ | v
    · rfl
    · cases v with
      | mstr s =>
        show constraintMatches _ (.mstr s) = _
        unfold constraintMatches
        exact rmatch_lits_stardot (idForKey anc) s.data (hnl d hd2 s hg)
      | mbool b => rfl
      | mint i => rfl
      | mfloat x => rfl
      | mbin b => rfl
      | mlist l => rfl
      | mdoc d2 => rfl
  unfold runQuery
  rw [if_neg (by simp [offsetExceeded]), if_neg (by norm_num [queryComponents])]
  simp only [hp, hd, hspec, addFilters, specHasKey, translateOrder]
  have hfin : finalDocs st
      { kind := kind, ancestorK := some anc, filters := [],
        orders := [], offset := none, limit := none }
      [("_id", .cregex ((idForKey anc).map (fun c => RItem.ione (.rchr c)) ++
        [.istar .rdot]))] [] =
      mongoFind (collectionOf st kind)
        [("_id", .cregex ((idForKey anc).map (fun c => RItem.ione (.rchr c)) ++
          [.istar .rdot]))] := rfl
  rw [hfin, hfind]

theorem hnl_of_all {docs : List MongoDoc}
    (h : docs.all (fun d =>
        match getField d "_id" with
        | some (.mstr s) => !s.data.contains '\n'
        | _ => true) = true) :
    ∀ d ∈ docs, ∀ s : String, getField d "_id" = some (.mstr s) → ¬ '\n' ∈ s.data := by
  intro d hd s hg
  rw [List.all_eq_true] at h
  have h2 := h d hd
  rw [hg] at h2
  simpa using h2

theorem find?_append_self (l : List (List Char × List MongoDoc)) (c : List Char)
    (docs : List MongoDoc) (h : l.any (fun p => p.fst = c) = false) :
    (l ++ [(c, docs)]).find? (fun p => p.fst = c) = some (c, docs) := by
  induction l with
  | nil => simp
  | cons e es ih =>
    rw [List.any_cons, Bool.or_eq_false_iff] at h
    rw [List.cons_append, List.find?_cons_of_neg _ (by simp [h.1])]
    exact ih h.2

theorem find?_map_set (l : List (List Char × List MongoDoc)) (c : List Char)
    (docs : List MongoDoc) (h : l.any (fun p => p.fst = c) = true) :
    (l.map (fun p => if p.fst = c then (c, docs) else p)).find?
      (fun p => p.fst = c) = some (c, docs) := by
  induction l with
  | nil => simp at h
  | cons e es ih =>
    rw [List.map_cons]
    by_cases h2 : e.fst = c
    · rw [if_pos h2]
      rw [List.find?_cons_of_pos _ (by simp)]
    · rw [if_neg h2]
      rw [List.find?_cons_of_neg _ (by simp [h2])]
      apply ih
      rw [List.any_cons] at h
      simpa [h2] using h

theorem collectionOf_set (st : StubState) (c : List Char) (docs : List MongoDoc) :
    collectionOf (setCollection st c docs) c = docs := by
  unfold setCollection
  by_cases ha : st.collections.any (fun p => p.fst = c) = true
  · rw [if_pos ha]
    unfold collectionOf
    rw [find?_map_set _ _ _ ha]
  · rw [if_neg ha]
    unfold collectionOf
    rw [find?_append_self _ _ _ (by rwa [Bool.not_eq_true] at ha)]

theorem findDocById_collSave (old : List MongoDoc) (doc : MongoDoc) (id : String)
    (hid : docId doc = some (.mstr id)) :
    findDocById (collSave old doc) id = some doc := by
  have hdoc : optValBeq (docId doc) (some (MongoValue.mstr id)) = true := by
    rw [hid]
    simp [optValBeq, mongoBeq]
  induction old with
  | nil =>
    unfold collSave findDocById
    exact List.find?_cons_of_pos _ hdoc
  | cons e es ih =>
    unfold collSave
    by_cases hb : optValBeq (docId e) (docId doc) = true
    · rw [if_pos hb]
      unfold findDocById
      exact List.find?_cons_of_pos _ hdoc
    · rw [if_neg hb]
      unfold findDocById
      rw [List.find?_cons_of_neg _ (by rw [← hid]; simpa using hb)]
      exact ih

theorem encodeValue_some {v : PyValue} (h : encodable v = true) :
    ∃ mv, encodeValue v = some mv ∧ decodeValue mv = some v := by
  rcases hh : encodeValue v with _ | mv
  · have := decodeValue_encodeValue v h
    rw [hh] at this
    simp at this
  · have := decodeValue_encodeValue v h
    rw [hh] at this
    simp only [Option.some_bind] at this
    exact ⟨mv, rfl, this⟩

theorem props_fold_roundtrip :
    ∀ (props : List (String × PyValue)) (acc : MongoDoc),
      props.all (fun p => encodable p.2) = true →
      (props.map Prod.fst).Nodup →
      (∀ p ∈ props, acc.any (fun q => q.fst == p.fst) = false) →
      ∃ eprops : MongoDoc,
        props.foldlM (fun d kv => (encodeValue kv.2).map (dictInsert d kv.1)) acc =
          some (acc ++ eprops) ∧
        eprops.mapM (fun p => (decodeValue p.2).map ((p.1, ·))) = some props ∧
        eprops.map Prod.fst = props.map Prod.fst := by
  intro props
  induction props with
  | nil =>
    intro acc _ _ _
    exact ⟨[], by simp, rfl, rfl⟩
  | cons pv rest ih =>
    intro acc henc hnodup hfresh
    obtain ⟨n, v⟩ := pv
    rw [List.all_cons, Bool.and_eq_true] at henc
    obtain ⟨mv, hmv, hdecv⟩ := encodeValue_some henc.1
    have hins : dictInsert acc n mv = acc ++ [(n, mv)] := by
      unfold dictInsert
      rw [if_neg]
      have := hfresh (n, v) (by simp)
      simp only at this
      simp [this]
    rw [List.map_cons, List.nodup_cons] at hnodup
    have hfresh2 : ∀ p ∈ rest, (acc ++ [(n, mv)]).any (fun q => q.fst == p.fst) = false := by
      intro p hp
      rw [List.any_append]
      have h1 := hfresh p (List.mem_cons_of_mem _ hp)
      have h2 : (n == p.fst) = false := by
        have : p.fst ∈ rest.map Prod.fst := List.mem_map_of_mem _ hp
        have hne : n ≠ p.fst := fun hc => hnodup.1 (hc ▸ this)
        simp [hne]
      simp [h1, h2]
    obtain ⟨eprops2, hfold2, hdec2, hnames2⟩ := ih (acc ++ [(n, mv)]) henc.2 hnodup.2 hfresh2
    refine ⟨(n, mv) :: eprops2, ?_, ?_, ?_⟩
    · rw [List.foldlM_cons]
      simp only [hmv, Option.map_some', Option.bind_eq_bind, Option.some_bind]
      rw [hins, hfold2]
      simp [List.append_assoc]
    · rw [List.mapM_cons]
      simp only [hdecv, Option.map_some', Option.bind_eq_bind, Option.some_bind, hdec2]
      rfl
    · simp [hnames2]

theorem wfKey_set_id {k : List PathElem} {last : PathElem} (hwf : wfKey k = true)
    (hl : k.getLast? = some last) (rnd : Int) :
    wfKey (k.dropLast ++ [{ last with ident := .num rnd }]) = true := by
  rw [wfKey, Bool.and_eq_true] at hwf ⊢
  refine ⟨by simp, ?_⟩
  rw [List.all_append, Bool.and_eq_true]
  constructor
  · rw [List.all_eq_true]
    intro x hx
    rw [List.all_eq_true] at hwf
    exact hwf.2 x ((List.dropLast_sublist k).subset hx)
  · have hmem : last ∈ k := by
      obtain ⟨hne, heq⟩ := List.mem_getLast?_eq_getLast
        (show last ∈ k.getLast? by rw [hl]; rfl)
      rw [heq]
      exact List.getLast_mem hne
    have hlast : wfElem last = true := by
      rw [List.all_eq_true] at hwf
      exact hwf.2 last hmem
    rw [wfElem, Bool.and_eq_true] at hlast
    simp [wfElem, hlast.1]

/-- C9 (amended): for an entity put without a caller-assigned identifier
(last path element has numeric id 0 and no name), with a well-formed key
path, encodable property values, and property names distinct and not
`_id`: whenever the drawn random id is nonzero, the key returned by Put
carries that nonzero numeric id, and a Get by the returned key yields an
entity equal to the written one in all fields.  (The drawn id can be 0:
see `put_get_roundtrip_cx`.) -/
theorem put_get_roundtrip (st : StubState) (e : Entity) (rnd : Int) (last : PathElem)
    (hl : e.key.getLast? = some last) (hid0 : last.ident = .num 0)
    (hwf : wfKey e.key = true) (hrnd : rnd ≠ 0)
    (henc : e.props.all (fun p => encodable p.2) = true)
    (hname : e.props.all (fun p => !(p.1 == "_id")) = true)
    (hnodup : (e.props.map Prod.fst).Nodup) :
    ∃ st2,
      putEntity st e rnd =
        .ok (st2, e.key.dropLast ++ [{ last with ident := .num rnd }]) ∧
      (e.key.dropLast ++ [{ last with ident := .num rnd }]).getLast? =
        some { last with ident := .num rnd } ∧
      PathId.num rnd ≠ PathId.num 0 ∧
      getEntity st2 (e.key.dropLast ++ [{ last with ident := .num rnd }]) =
        some { key := e.key.dropLast ++ [{ last with ident := .num rnd }],
               props := e.props } := by
  have hwf2 := wfKey_set_id hwf hl rnd
  have hfresh0 : ∀ p ∈ e.props,
      ([("_id", MongoValue.mstr (idStrOfKey (e.key.dropLast ++
          [{ last with ident := .num rnd }])))] : MongoDoc).any
        (fun q => q.fst == p.fst) = false := by
    intro p hp
    rw [List.all_eq_true] at hname
    have h2 := hname p hp
    have hne : p.1 ≠ "_id" := by simpa using h2
    simp [Ne.symm hne]
  obtain ⟨eprops, hfold, hdec, hnames⟩ :=
    props_fold_roundtrip e.props _ henc hnodup hfresh0
  have hdocm : mongoDocumentForEntity
      { e with key := e.key.dropLast ++ [{ last with ident := .num rnd }] } =
      some (("_id", MongoValue.mstr (idStrOfKey (e.key.dropLast ++
        [{ last with ident := .num rnd }]))) :: eprops) := by
    unfold mongoDocumentForEntity
    rw [hfold]
    simp
  have hdid : docId (("_id", MongoValue.mstr (idStrOfKey (e.key.dropLast ++
      [{ last with ident := .num rnd }]))) :: eprops) =
      some (.mstr (idStrOfKey (e.key.dropLast ++ [{ last with ident := .num rnd }]))) := by
    simp [docId, getField]
  have hkey : keyForId (idStrOfKey (e.key.dropLast ++
      [{ last with ident := .num rnd }])).data =
      some (e.key.dropLast ++ [{ last with ident := .num rnd }]) := by
    show keyForId (idForKey (e.key.dropLast ++ [{ last with ident := .num rnd }])) = _
    exact keyForId_idForKey hwf2
  have heid : ∀ q ∈ eprops, ¬ q.1 = "_id" := by
    intro q hq hcontra
    have hql : q.1 ∈ eprops.map Prod.fst := List.mem_map_of_mem _ hq
    rw [hnames] at hql
    obtain ⟨p, hp, hpq⟩ := List.mem_map.mp hql
    rw [List.all_eq_true] at hname
    have h2 := hname p hp
    rw [hpq, hcontra] at h2
    simp at h2
  have hrem : removeField (("_id", MongoValue.mstr (idStrOfKey (e.key.dropLast ++
      [{ last with ident := .num rnd }]))) :: eprops) "_id" = eprops := by
    unfold removeField
    rw [List.filter_cons, if_neg (by simp)]
    rw [List.filter_eq_self.mpr]
    intro q hq
    simpa using heid q hq
  have hput : putEntity st e rnd =
      .ok (setCollection st (collKind (e.key.dropLast ++ [{ last with ident := .num rnd }]))
             (collSave (collectionOf st (collKind (e.key.dropLast ++
               [{ last with ident := .num rnd }])))
               (("_id", MongoValue.mstr (idStrOfKey (e.key.dropLast ++
                 [{ last with ident := .num rnd }]))) :: eprops)),
           e.key.dropLast ++ [{ last with ident := .num rnd }]) := by
    unfold putEntity
    simp only [hl, hid0, if_pos, hdocm, hdid, hkey]
  have hent : entityForMongoDocument (("_id", MongoValue.mstr (idStrOfKey (e.key.dropLast ++
      [{ last with ident := .num rnd }]))) :: eprops) =
      some { key := e.key.dropLast ++ [{ last with ident := .num rnd }],
             props := e.props } := by
    unfold entityForMongoDocument
    have hg : getField (("_id", MongoValue.mstr (idStrOfKey (e.key.dropLast ++
        [{ last with ident := .num rnd }]))) :: eprops) "_id" =
        some (.mstr (idStrOfKey (e.key.dropLast ++ [{ last with ident := .num rnd }]))) := by
      simp [getField]
    simp only [hg, Option.bind_eq_bind, Option.some_bind, hkey, hrem, hdec,
      Option.map_some', Option.pure_def]
  refine ⟨_, hput, by rw [List.getLast?_concat], by simp [hrnd], ?_⟩
  unfold getEntity
  rw [collectionOf_set]
  rw [findDocById_collSave _ _ _ hdid]
  exact hent

/-- C9 witness: a concrete Pet entity with id 0 and drawn random id 7:
Put returns the key with id 7 and Get by it returns the entity intact. -/
theorem put_get_roundtrip_witness :
    ∃ s,
      putEntity { collections := [], nextCursor := 1, queries := [] }
          { key := [⟨['P','e','t'], PathId.num 0⟩],
            props := [("name", PyValue.scalar (.pstr "fluffy"))] } 7 =
        .ok (s, [⟨['P','e','t'], PathId.num 7⟩]) ∧
      ([⟨['P','e','t'], PathId.num 7⟩] : List PathElem).getLast? =
        some ⟨['P','e','t'], PathId.num 7⟩ ∧
      PathId.num 7 ≠ PathId.num 0 ∧
      getEntity s [⟨['P','e','t'], PathId.num 7⟩] =
        some { key := [⟨['P','e','t'], PathId.num 7⟩],
               props := [("name", PyValue.scalar (.pstr "fluffy"))] } :=
  put_get_roundtrip _ _ 7 ⟨['P','e','t'], PathId.num 0⟩ rfl rfl (by decide) (by decide)
    (by decide) (by decide) (by decide)

/-- C9 counterexample: `random.randint(-sys.maxint-1, sys.maxint)` includes 0,
and when the drawn id is 0 the key returned by Put carries numeric id 0,
not a nonzero id as the spec states. -/
theorem put_get_roundtrip_cx :
    putReturnedIdents { collections := [], nextCursor := 1, queries := [] }
        { key := [⟨['P','e','t'], PathId.num 0⟩],
          props := [("name", PyValue.scalar (.pstr "fluffy"))] } 0 =
      some [PathId.num 0] := by rfl

/-- C4 witness: ancestor `[A, name n]` (regex-safe encoding) over kind `C`
with one descendant and one unrelated document: exactly the descendant is
registered. -/
theorem ancestor_query_prefix_witness :
    runQuery
        { collections := [(['C'],
            [[("_id", MongoValue.mstr "A\x08n\x08C\x08c")],
             [("_id", MongoValue.mstr "B\x08m\x08C\x08d")]])],
          nextCursor := 1, queries := [] }
        { kind := ['C'], ancestorK := some [⟨['A'], PathId.name ['n']⟩],
          filters := [], orders := [], offset := none, limit := none } =
      .ok ({ collections := [(['C'],
               [[("_id", MongoValue.mstr "A\x08n\x08C\x08c")],
                [("_id", MongoValue.mstr "B\x08m\x08C\x08d")]])],
             nextCursor := 2,
             queries := [(1, [[("_id", MongoValue.mstr "A\x08n\x08C\x08c")]])] },
           1, true) :=
  ancestor_query_prefix
    { collections := [(['C'],
        [[("_id", MongoValue.mstr "A\x08n\x08C\x08c")],
         [("_id", MongoValue.mstr "B\x08m\x08C\x08d")]])],
      nextCursor := 1, queries := [] }
    ['C'] [⟨['A'], PathId.name ['n']⟩]
    [("_id", MongoValue.mstr "A\x08n\x08C\x08c")]
    { key := [⟨['A'], PathId.name ['n']⟩, ⟨['C'], PathId.name ['c']⟩], props := [] }
    rfl rfl (by decide) (hnl_of_all (by decide))

/-- C4 counterexample: the ancestor id is spliced into the regex without
escaping, so the metacharacter `+` in kind `A+` makes the pattern
`^A+(sep)n.*$` match a document under the DIFFERENT ancestor `[A, name n]`,
whose id does not have the queried ancestor's encoding as a prefix. -/
theorem ancestor_query_prefix_cx :
    runQuery
        { collections := [(['C'], [[("_id", MongoValue.mstr "A\x08n\x08C\x08c")]])],
          nextCursor := 1, queries := [] }
        { kind := ['C'], ancestorK := some [⟨['A', '+'], PathId.name ['n']⟩],
          filters := [], orders := [], offset := none, limit := none } =
      .ok ({ collections := [(['C'], [[("_id", MongoValue.mstr "A\x08n\x08C\x08c")]])],
             nextCursor := 2,
             queries := [(1, [[("_id", MongoValue.mstr "A\x08n\x08C\x08c")]])] },
           1, true) ∧
    (idForKey [⟨['A', '+'], PathId.name ['n']⟩]).isPrefixOf
      "A\x08n\x08C\x08c".data = false :=
  ⟨rfl, by decide⟩

end MongoStub
